import Mathlib

set_option maxRecDepth 20000

/-! Shallow embedding of the bitmap primitives (src/bitmap.rs) and of the
InfixStore data structure (src/infix_store.rs) of the range-filters
repository.  Machine words (u64) are modelled as natural numbers and every
64-bit operation that can wrap is followed by an explicit reduction modulo
2 ^ 64.  Rust slices of u64 become List Nat; an out-of-range read yields 0
and an out-of-range write is dropped (the Rust code would panic there; all
uses appearing in the theorems below stay in bounds). -/

/-- MASK64 is u64 with all 64 bits set; the image of the Rust operator ! on u64. -/
def MASK64 : Nat := 2 ^ 64 - 1

/-- wget d i reads word i of a word slice (0 when out of range). -/
def wget (d : List Nat) (i : Nat) : Nat := d.getD i 0

/-- pop64 w is u64::count_ones: the number of set bits among bit positions
0..63 of the word w. -/
def pop64 (w : Nat) : Nat := (List.range 64).countP (fun i => w.testBit i)

/-- wslice d a n is the Rust subslice d[a..a+n] (shorter when d is short). -/
def wslice (d : List Nat) (a n : Nat) : List Nat := (d.drop a).take n

namespace Bitmap

/-- get_bit from src/bitmap.rs: data[pos / 64] & (1 << (pos % 64)) != 0. -/
def get_bit (d : List Nat) (pos : Nat) : Bool :=
  (wget d (pos / 64)).testBit (pos % 64)

/-- rank from src/bitmap.rs: count of set bits in positions [0, pos).
Full-word popcounts below pos / 64 plus a masked popcount of the partial
word when pos % 64 > 0. -/
def rank (d : List Nat) (pos : Nat) : Nat :=
  let wi := pos / 64
  let bi := pos % 64
  let base := ((List.range wi).map (fun i => pop64 (wget d i))).sum
  if 0 < bi then base + pop64 ((wget d wi) &&& ((1 <<< bi) - 1)) else base

/-- siw w fuel i r embeds the loop of select_in_word (src/bitmap.rs),
scanning bits i, i+1, ... for the set bit of in-word rank r. -/
def siw : Nat → Nat → Nat → Nat → Option Nat
  | _, 0, _, _ => none
  | w, fuel + 1, i, r =>
    if w.testBit i then
      if r = 0 then some i else siw w fuel (i + 1) (r - 1)
    else siw w fuel (i + 1) r

/-- select_in_word from src/bitmap.rs: position of the (r+1)-th set bit
among bits 0..63 of the word. -/
def select_in_word (w r : Nat) : Option Nat := siw w 64 0 r

/-- selectGo embeds the word loop of select (src/bitmap.rs); count is the
popcount of the words already passed, wi the current word index. -/
def selectGo : Nat → List Nat → Nat → Nat → Option Nat
  | _, [], _, _ => none
  | r, w :: ws, wi, count =>
    if r + 1 ≤ count + pop64 w then
      let remaining := r + 1 - count
      (select_in_word w (remaining - 1)).map (fun p => wi * 64 + p)
    else selectGo r ws (wi + 1) (count + pop64 w)

/-- select from src/bitmap.rs: position of the (r+1)-th set bit, or none. -/
def select (d : List Nat) (r : Nat) : Option Nat := selectGo r d 0 0

/-- anyNZ d a n embeds the intermediate-word loop of has_bits_in_range:
true iff one of the n words starting at index a is nonzero. -/
def anyNZ : List Nat → Nat → Nat → Bool
  | _, _, 0 => false
  | d, a, n + 1 => if wget d a = 0 then anyNZ d (a + 1) n else true

/-- has_bits_in_range from src/bitmap.rs: true iff any bit in [lo, hi) is
set, with the single-word and multi-word mask cases of the source. -/
def has_bits_in_range (d : List Nat) (lo hi : Nat) : Bool :=
  if hi ≤ lo then false
  else
    let sw := lo / 64
    let ew := (hi - 1) / 64
    if sw = ew then
      let sb := lo % 64
      let eb := hi % 64
      let mask := if eb = 0 then MASK64 ^^^ ((1 <<< sb) - 1)
                  else ((1 <<< eb) - 1) &&& (MASK64 ^^^ ((1 <<< sb) - 1))
      if sw < d.length then decide ((wget d sw) &&& mask ≠ 0) else false
    else
      (if sw < d.length then
        decide ((wget d sw) &&& (MASK64 ^^^ ((1 <<< (lo % 64)) - 1)) ≠ 0)
       else false) ||
      anyNZ d (sw + 1) (min ew d.length - (sw + 1)) ||
      (if ew < d.length then
        let eb := hi % 64
        let emask := if eb = 0 then MASK64 else (1 <<< eb) - 1
        decide ((wget d ew) &&& emask ≠ 0)
       else false)

end Bitmap

/-- popTotal d is the total popcount of a word slice. -/
def popTotal (d : List Nat) : Nat := (d.map pop64).sum

/-! Constants of src/infix_store.rs. -/

/-- TARGET_SIZE from src/infix_store.rs. -/
def TARGET_SIZE : Nat := 1024

/-- QUOTIENT_SIZE from src/infix_store.rs. -/
def QUOTIENT_SIZE : Nat := 10

/-- SIZE_GRADE_COUNT from src/infix_store.rs. -/
def SIZE_GRADE_COUNT : Nat := 31

/-- U64_BITS: the word size used throughout the crate (64). -/
def U64_BITS : Nat := 64

/-- SCALED_SIZES from src/infix_store.rs: slots per size grade, grades
0..30, grade 14 neutral at 1024 slots. -/
def SCALED_SIZES : List Nat :=
  [463, 488, 514, 541, 570, 600, 632, 666, 701, 738, 777, 818, 861, 907,
   1024, 1078, 1135, 1195, 1258, 1325, 1395, 1469, 1547, 1629, 1715, 1806,
   1901, 2002, 2108, 2219, 2326]

/-- scaled g is SCALED_SIZES[g] (every use in the source is in bounds). -/
def scaled (g : Nat) : Nat := SCALED_SIZES.getD g 0

/-- occWords: words of the occupieds bitmap, (TARGET_SIZE + 63) / 64 = 16. -/
def occWords : Nat := (TARGET_SIZE + U64_BITS - 1) / U64_BITS

/-- runWords ns: words of the runends bitmap for ns slots. -/
def runWords (ns : Nat) : Nat := (ns + U64_BITS - 1) / U64_BITS

/-- slotWords ns R: words of the slots array for ns slots of R bits. -/
def slotWords (ns R : Nat) : Nat := (ns * R + U64_BITS - 1) / U64_BITS

/-- InfixStore from src/infix_store.rs.  data is the packed word array
holding popcounts cache, occupieds, runends and slots, in that order. -/
structure InfixStore where
  elem_count : Nat
  size_grade : Nat
  remainder_size : Nat
  quotient_size : Nat
  data : List Nat
deriving DecidableEq

/-- set_bit_at d base pos embeds set_bit (src/bitmap.rs) applied in place
to the subslice of d starting at word base. -/
def set_bit_at (d : List Nat) (base pos : Nat) : List Nat :=
  d.set (base + pos / 64) ((wget d (base + pos / 64)) ||| (1 <<< (pos % 64)))

/-- clear_bit_at d base pos embeds clear_bit (src/bitmap.rs) applied in
place to the subslice of d starting at word base. -/
def clear_bit_at (d : List Nat) (base pos : Nat) : List Nat :=
  d.set (base + pos / 64)
    ((wget d (base + pos / 64)) &&& (MASK64 ^^^ (1 <<< (pos % 64))))

/-- split_qr embeds InfixStore::split_infix: bottom R bits are the
remainder, the next Q bits the quotient. -/
def split_qr (ifx Q R : Nat) : Nat × Nat :=
  let remainder := ifx &&& ((1 <<< R) - 1)
  let quotient := (ifx >>> R) &&& ((1 <<< Q) - 1)
  (quotient, remainder)

/-- write_slot_at embeds InfixStore::write_slot applied in place to the
subslice of d starting at word base: clear the R bits of the slot, write
the remainder, and handle the overflow into the next word.  The two
64-bit shifts that can wrap in Rust are reduced modulo 2 ^ 64. -/
def write_slot_at (d : List Nat) (base idx rem R : Nat) : List Nat :=
  let bp := idx * R
  let wi := base + bp / 64
  let off := bp % 64
  let mask := (((1 <<< R) - 1) <<< off) % 2 ^ 64
  let d1 := d.set wi ((wget d wi) &&& (MASK64 ^^^ mask))
  let d2 := d1.set wi
    ((wget d1 wi) ||| (((rem &&& ((1 <<< R) - 1)) <<< off) % 2 ^ 64))
  if 64 < off + R then
    let ov := off + R - 64
    let ovmask := (1 <<< ov) - 1
    let d3 := d2.set (wi + 1) ((wget d2 (wi + 1)) &&& (MASK64 ^^^ ovmask))
    d3.set (wi + 1) ((wget d3 (wi + 1)) ||| (rem >>> (R - ov)))
  else d2

/-- write_slot is InfixStore::write_slot on a standalone slots slice. -/
def write_slot (slots : List Nat) (idx rem R : Nat) : List Nat :=
  write_slot_at slots 0 idx rem R

/-- read_slot_raw embeds the body of InfixStore::read_slot on a slots
slice: extract R bits at slot idx, with the overflow word case. -/
def read_slot_raw (slots : List Nat) (idx R : Nat) : Nat :=
  let bp := idx * R
  let wi := bp / 64
  let off := bp % 64
  let result := ((wget slots wi) >>> off) &&& ((1 <<< R) - 1)
  if 64 < off + R then
    let ov := off + R - 64
    result ||| (((wget slots (wi + 1)) &&& ((1 <<< ov) - 1)) <<< (R - ov))
  else result

/-- compute_popcounts from src/infix_store.rs: cache the occupieds and
runends popcounts of the first halves in word 0. -/
def compute_popcounts (d : List Nat) (occS runS ns : Nat) : List Nat :=
  let op := Bitmap.rank (wslice d occS occWords) (TARGET_SIZE / 2)
  let rp := Bitmap.rank (wslice d runS (runWords ns)) (ns / 2)
  d.set 0 ((op <<< 32) ||| rp)

namespace InfixStore

/-- num_slots from src/infix_store.rs: SCALED_SIZES[size_grade]. -/
def num_slots (s : InfixStore) : Nat := scaled s.size_grade

/-- occSlice s is the occupieds subslice of data (words 1..17). -/
def occSlice (s : InfixStore) : List Nat := wslice s.data 1 occWords

/-- runSlice s is the runends subslice of data. -/
def runSlice (s : InfixStore) : List Nat :=
  wslice s.data (1 + occWords) (runWords (scaled s.size_grade))

/-- slotsStart s is the word index where the slots array begins. -/
def slotsStart (s : InfixStore) : Nat :=
  1 + occWords + runWords (scaled s.size_grade)

/-- slotsSlice s is the slots subslice of data. -/
def slotsSlice (s : InfixStore) : List Nat :=
  wslice s.data (slotsStart s) (slotWords (scaled s.size_grade) s.remainder_size)

/-- is_occupied from src/infix_store.rs. -/
def is_occupied (s : InfixStore) (q : Nat) : Bool := Bitmap.get_bit (occSlice s) q

/-- is_runend from src/infix_store.rs. -/
def is_runend (s : InfixStore) (i : Nat) : Bool := Bitmap.get_bit (runSlice s) i

/-- read_slot from src/infix_store.rs. -/
def read_slot (s : InfixStore) (idx : Nat) : Nat :=
  read_slot_raw (slotsSlice s) idx s.remainder_size

/-- csg_go embeds the grade loop of InfixStore::choose_size_grade. -/
def csg_go (m : Nat) : List Nat → Nat → Nat
  | [], _ => SIZE_GRADE_COUNT - 1
  | sz :: rest, g => if m ≤ sz then g else csg_go m rest (g + 1)

/-- choose_size_grade from src/infix_store.rs; the element count is
compared as a u16, hence the reduction modulo 2 ^ 16. -/
def choose_size_grade (n : Nat) : Nat := csg_go (n % 2 ^ 16) SCALED_SIZES 0

/-- load_go embeds the infix loop of InfixStore::load_infixes_to_store,
threading the data words, the next slot position and the previous
quotient; returns the data and the final slot position. -/
def load_go (Q R runS slotS : Nat) :
    List Nat → List Nat → Nat → Option Nat → List Nat × Nat
  | d, [], pos, _ => (d, pos)
  | d, ifx :: rest, pos, prevQ =>
    let q := (split_qr ifx Q R).1
    let r := (split_qr ifx Q R).2
    let dA := set_bit_at d 1 q
    let dB := match prevQ with
      | some p => if p ≠ q then set_bit_at dA runS (pos - 1) else dA
      | none => dA
    let dC := write_slot_at dB slotS pos r R
    load_go Q R runS slotS dC rest (pos + 1) (some q)

/-- load_infixes_to_store from src/infix_store.rs: load sorted infixes,
mark the final runend, then cache the popcounts. -/
def load_infixes_to_store (d : List Nat) (infixes : List Nat) (Q R ns : Nat) :
    List Nat :=
  let runS := 1 + occWords
  let slotS := runS + runWords ns
  let res := load_go Q R runS slotS d infixes 0 none
  let d3 := if 0 < res.2 then set_bit_at res.1 runS (res.2 - 1) else res.1
  compute_popcounts d3 1 runS ns

/-- new_with_infixes from src/infix_store.rs; elem_count is stored as a
u16 in the source, hence the reduction modulo 2 ^ 16. -/
def new_with_infixes (infixes : List Nat) (R : Nat) : InfixStore :=
  let g := choose_size_grade infixes.length
  let ns := scaled g
  let total := 1 + occWords + runWords ns + slotWords ns R
  let d := List.replicate total 0
  if infixes.isEmpty then ⟨0, g, R, QUOTIENT_SIZE, d⟩
  else ⟨infixes.length % 2 ^ 16, g, R, QUOTIENT_SIZE,
        load_infixes_to_store d infixes QUOTIENT_SIZE R ns⟩

/-- copyRange dst src ds ss n embeds copy_from_slice: dst with words
ds..ds+n replaced by src words ss..ss+n. -/
def copyRange (dst src : List Nat) (ds ss : Nat) : Nat → List Nat
  | 0 => dst
  | n + 1 => (copyRange dst src ds ss n).set (ds + n) (wget src (ss + n))

/-- resize_to from src/infix_store.rs: fresh zeroed data at the new
grade; copy the popcounts+occupieds prefix, the first
ceil(elem_count / 64) runends words and the first
ceil(elem_count * R / 64) slots words. -/
def resize_to (s : InfixStore) (g : Nat) : InfixStore :=
  let ns2 := scaled g
  let total := 1 + occWords + runWords ns2 + slotWords ns2 s.remainder_size
  let nd0 : List Nat := List.replicate total 0
  let runS := 1 + occWords
  let slotS2 := runS + runWords ns2
  let oldSlotS := runS + runWords (scaled s.size_grade)
  let nd1 := copyRange nd0 s.data 0 0 runS
  let vr := (s.elem_count + U64_BITS - 1) / U64_BITS
  let nd2 := copyRange nd1 s.data runS runS vr
  let vs := (s.elem_count * s.remainder_size + U64_BITS - 1) / U64_BITS
  let nd3 := copyRange nd2 s.data slotS2 oldSlotS vs
  { s with data := nd3, size_grade := g }

/-- resize_up from src/infix_store.rs. -/
def resize_up (s : InfixStore) : Bool × InfixStore :=
  if SIZE_GRADE_COUNT - 1 ≤ s.size_grade then (false, s)
  else (true, resize_to s (s.size_grade + 1))

/-- resize_down from src/infix_store.rs. -/
def resize_down (s : InfixStore) : Bool × InfixStore :=
  if s.size_grade = 0 then (false, s)
  else (true, resize_to s (s.size_grade - 1))

/-- shift_slots_right_go embeds the descending loop of
shift_slots_right: n iterations with i descending from p + n - 1 to p. -/
def shift_slots_right_go : InfixStore → Nat → Nat → InfixStore
  | s, _, 0 => s
  | s, p, n + 1 =>
    let i := p + n
    let v := read_slot s i
    shift_slots_right_go
      { s with data := write_slot_at s.data (slotsStart s) (i + 1) v s.remainder_size }
      p n

/-- shift_slots_right from src/infix_store.rs. -/
def shift_slots_right (s : InfixStore) (p : Nat) : InfixStore :=
  shift_slots_right_go s p (s.elem_count - p)

/-- shift_runends_right_go embeds the descending loop of
shift_runends_right. -/
def shift_runends_right_go : InfixStore → Nat → Nat → InfixStore
  | s, _, 0 => s
  | s, p, n + 1 =>
    let i := p + n
    let s2 := if is_runend s i
      then { s with data := set_bit_at s.data (1 + occWords) (i + 1) }
      else { s with data := clear_bit_at s.data (1 + occWords) (i + 1) }
    shift_runends_right_go s2 p n

/-- shift_runends_right from src/infix_store.rs: shift the bits right by
one, then clear the bit at the start position. -/
def shift_runends_right (s : InfixStore) (p : Nat) : InfixStore :=
  let s2 := shift_runends_right_go s p (s.elem_count - p)
  { s2 with data := clear_bit_at s2.data (1 + occWords) p }

/-- shift_slots_left_go embeds the ascending loop of shift_slots_left. -/
def shift_slots_left_go : InfixStore → Nat → Nat → InfixStore
  | s, _, 0 => s
  | s, i, n + 1 =>
    let v := read_slot s (i + 1)
    shift_slots_left_go
      { s with data := write_slot_at s.data (slotsStart s) i v s.remainder_size }
      (i + 1) n

/-- shift_slots_left from src/infix_store.rs (the source computes
elem_count - 1 in usize; elem_count is never 0 at its call sites). -/
def shift_slots_left (s : InfixStore) (p : Nat) : InfixStore :=
  shift_slots_left_go s p (s.elem_count - 1 - p)

/-- shift_runends_left_go embeds the ascending loop of
shift_runends_left. -/
def shift_runends_left_go : InfixStore → Nat → Nat → InfixStore
  | s, _, 0 => s
  | s, i, n + 1 =>
    let s2 := if is_runend s (i + 1)
      then { s with data := set_bit_at s.data (1 + occWords) i }
      else { s with data := clear_bit_at s.data (1 + occWords) i }
    shift_runends_left_go s2 (i + 1) n

/-- shift_runends_left from src/infix_store.rs: shift left by one, then
clear the bit at elem_count - 1. -/
def shift_runends_left (s : InfixStore) (p : Nat) : InfixStore :=
  let s2 := shift_runends_left_go s p (s.elem_count - 1 - p)
  { s2 with data := clear_bit_at s2.data (1 + occWords) (s2.elem_count - 1) }

/-- run_index_of s q is rank(occupieds, q), the run index used by
insert, delete and get_run_bounds (identical expression in all three). -/
def run_index_of (s : InfixStore) (q : Nat) : Nat := Bitmap.rank (occSlice s) q

/-- run_start_of s q is the run start used by insert and delete:
select(runends, run_index - 1).map(x => x + 1).unwrap_or(0), or 0 when
the run index is 0 (identical expression in both methods). -/
def run_start_of (s : InfixStore) (q : Nat) : Nat :=
  if run_index_of s q = 0 then 0
  else match Bitmap.select (runSlice s) (run_index_of s q - 1) with
    | some x => x + 1
    | none => 0

/-- ins_run_end s q is the run end used by insert:
select(runends, run_index).unwrap_or(elem_count). -/
def ins_run_end (s : InfixStore) (q : Nat) : Nat :=
  match Bitmap.select (runSlice s) (run_index_of s q) with
  | some x => x
  | none => s.elem_count

/-- ins_scan embeds the run scan of insert: none means the remainder is
already present (the method returns true without mutating); some i is
the insertion position (default dflt = run_end + 1 when every remainder
of the run is smaller). -/
def ins_scan : InfixStore → Nat → Nat → Nat → Nat → Option Nat
  | _, _, _, 0, dflt => some dflt
  | s, r, i, n + 1, dflt =>
    let v := read_slot s i
    if v = r then none
    else if r < v then some i
    else ins_scan s r (i + 1) n dflt

/-- ins_pos is the insertion-position computation of insert: the run
start for a new quotient, otherwise the run scan (none on duplicate). -/
def ins_pos (s : InfixStore) (q r : Nat) : Option Nat :=
  if ! is_occupied s q then some (run_start_of s q)
  else ins_scan s r (run_start_of s q)
    (ins_run_end s q + 1 - run_start_of s q) (ins_run_end s q + 1)

/-- insert_core embeds the body of InfixStore::insert after the resize
check: locate the run, scan for the position, shift slots and runends,
write the remainder and fix the occupieds and runends bits. -/
def insert_core (s : InfixStore) (ifx : Nat) : InfixStore :=
  let q := (split_qr ifx s.quotient_size s.remainder_size).1
  let r := (split_qr ifx s.quotient_size s.remainder_size).2
  let isNew := ! is_occupied s q
  let re := ins_run_end s q
  match ins_pos s q r with
  | none => s
  | some ip =>
    let s1 := if 0 < s.elem_count
      then shift_runends_right (shift_slots_right s ip) ip else s
    let s2 := { s1 with
      data := write_slot_at s1.data (slotsStart s1) ip r s1.remainder_size }
    let s3 :=
      if isNew then
        let sA := { s2 with data := set_bit_at s2.data (1 + occWords) ip }
        { sA with data := set_bit_at sA.data 1 q }
      else if re ≤ ip then
        let sA := { s2 with data := clear_bit_at s2.data (1 + occWords) re }
        { sA with data := set_bit_at sA.data (1 + occWords) ip }
      else s2
    { s3 with elem_count := s3.elem_count + 1 }

/-- insert from src/infix_store.rs: resize up when full (failing at the
top grade), then run the insertion body, which always returns true. -/
def insert (s : InfixStore) (ifx : Nat) : Bool × InfixStore :=
  if scaled s.size_grade ≤ s.elem_count then
    match resize_up s with
    | (false, s1) => (false, s1)
    | (true, s1) => (true, insert_core s1 ifx)
  else (true, insert_core s ifx)

/-- del_scan embeds the run scan of delete: position of the first slot
in the run holding the remainder. -/
def del_scan : InfixStore → Nat → Nat → Nat → Option Nat
  | _, _, _, 0 => none
  | s, r, i, n + 1 => if read_slot s i = r then some i else del_scan s r (i + 1) n

/-- delete from src/infix_store.rs.  none embeds the panic of
expect when the quotient is occupied but select finds no runend. -/
def delete (s : InfixStore) (ifx : Nat) : Option (Bool × InfixStore) :=
  let q := (split_qr ifx s.quotient_size s.remainder_size).1
  let r := (split_qr ifx s.quotient_size s.remainder_size).2
  if ! is_occupied s q then some (false, s)
  else
    let rs := run_start_of s q
    match Bitmap.select (runSlice s) (run_index_of s q) with
    | none => none
    | some re =>
      match del_scan s r rs (re + 1 - rs) with
      | none => some (false, s)
      | some pos =>
        let s1 :=
          if rs = re then { s with data := clear_bit_at s.data 1 q }
          else if pos = re
            then { s with data := set_bit_at s.data (1 + occWords) (pos - 1) }
          else s
        let s2 := shift_runends_left (shift_slots_left s1 pos) pos
        let s3 := { s2 with elem_count := s2.elem_count - 1 }
        let s4 :=
          if 0 < s3.size_grade then
            if s3.elem_count ≤ scaled (s3.size_grade - 1) / 2
              then (resize_down s3).2 else s3
          else s3
        some (true, s4)

/-- grb_walk embeds the backward walk of get_run_bounds: decrement while
the previous slot is not a runend. -/
def grb_walk : InfixStore → Nat → Nat
  | _, 0 => 0
  | s, i + 1 => if is_runend s i then i + 1 else grb_walk s i

/-- get_run_bounds from src/infix_store.rs. -/
def get_run_bounds (s : InfixStore) (q : Nat) : Option (Nat × Nat) :=
  match Bitmap.select (runSlice s) (run_index_of s q) with
  | none => none
  | some re => some (grb_walk s re, re)

/-- frr_scan embeds the run scan of find_remainder_in_run. -/
def frr_scan : InfixStore → Nat → Nat → Nat → Bool
  | _, _, _, 0 => false
  | s, t, i, n + 1 => if read_slot s i = t then true else frr_scan s t (i + 1) n

/-- find_remainder_in_run from src/infix_store.rs. -/
def find_remainder_in_run (s : InfixStore) (q target : Nat) : Bool :=
  match get_run_bounds s q with
  | none => false
  | some bounds => frr_scan s target bounds.1 (bounds.2 + 1 - bounds.1)

end InfixStore

/-! Concrete stores exhibiting the runend-duplication slip of insert.
Build from the strictly increasing infixes 25610 = (100 << 8) | 10 and
25630 = (100 << 8) | 30, then insert 25620 = (100 << 8) | 20 into the
middle of the run. -/

/-- bugStore0 is the store built from the sorted infixes 25610, 25630
with an 8-bit remainder. -/
def bugStore0 : InfixStore := InfixStore.new_with_infixes [25610, 25630] 8

/-- bugStore1 is bugStore0 after insert 25620. -/
def bugStore1 : InfixStore := (bugStore0.insert 25620).2

/-- C1: the layout invariant popcount(occupieds) = popcount(runends) =
number of distinct quotients fails after an insert.  Inserting 25620
(quotient 100, remainder 20) into the run of quotient 100 holding
remainders 10 and 30 succeeds, but afterwards the occupieds bitmap holds
one set bit while the runends bitmap holds two: the branch of insert for
insert_pos >= run_end re-sets the old runend bit that the runend shift
had already moved. -/
theorem insert_breaks_layout_invariant :
    (bugStore0.insert 25620).1 = true ∧
    popTotal (InfixStore.occSlice bugStore1) = 1 ∧
    popTotal (InfixStore.runSlice bugStore1) = 2 ∧
    bugStore1.is_runend 1 = true ∧
    bugStore1.is_runend 2 = true ∧
    bugStore1.elem_count = 3 ∧
    bugStore1.elem_count ≤ bugStore1.num_slots := by decide

/-- C2: a store-level false negative.  The infix 25630 (quotient 100,
remainder 30) is loaded at build time and reported present; after the
successful insert of 25620 the duplicated runend bit truncates the run
located by get_run_bounds to slots 0..1, so remainder 30 (now in slot 2)
is no longer found. -/
theorem insert_creates_false_negative :
    split_qr 25630 QUOTIENT_SIZE 8 = (100, 30) ∧
    bugStore0.find_remainder_in_run 100 30 = true ∧
    (bugStore0.insert 25620).1 = true ∧
    bugStore1.is_occupied 100 = true ∧
    bugStore1.get_run_bounds 100 = some (0, 1) ∧
    bugStore1.read_slot 2 = 30 ∧
    bugStore1.find_remainder_in_run 100 30 = false := by decide

/-! Bit-level characterisation of get_bit, rank and select, leading to
the rank-select identity. -/

/-- bitCount d p counts the set bits of the bitmap d at positions below p. -/
def bitCount (d : List Nat) (p : Nat) : Nat :=
  (List.range p).countP (fun i => Bitmap.get_bit d i)

theorem wget_cons_succ (w : Nat) (ws : List Nat) (k : Nat) :
    wget (w :: ws) (k + 1) = wget ws k := by
  simp [wget]

theorem word_div (k i : Nat) (h : i < 64) : (64 * k + i) / 64 = k := by
  have e : 64 * k + i = i + 64 * k := by omega
  rw [e, Nat.add_mul_div_left _ _ (by norm_num : (0:Nat) < 64),
    Nat.div_eq_of_lt h]
  omega

theorem word_mod (k i : Nat) (h : i < 64) : (64 * k + i) % 64 = i := by
  have e : 64 * k + i = i + k * 64 := by omega
  rw [e, Nat.add_mul_mod_self_right, Nat.mod_eq_of_lt h]

theorem get_bit_word (d : List Nat) (k i : Nat) (h : i < 64) :
    Bitmap.get_bit d (64 * k + i) = (wget d k).testBit i := by
  unfold Bitmap.get_bit
  rw [word_div k i h, word_mod k i h]

theorem mask_pop (w b : Nat) (hb : b ≤ 64) :
    pop64 (w &&& ((1 <<< b) - 1)) = (List.range b).countP (fun i => w.testBit i) := by
  have hmask : ∀ i : Nat,
      (w &&& ((1 <<< b) - 1)).testBit i = (w.testBit i && decide (i < b)) := by
    intro i
    rw [Nat.one_shiftLeft, Nat.testBit_land, Nat.testBit_two_pow_sub_one]
  obtain ⟨c, hc⟩ : ∃ c, 64 = b + c := ⟨64 - b, by omega⟩
  unfold pop64
  rw [hc, List.range_add, List.countP_append]
  have h1 : (List.range b).countP (fun i => (w &&& ((1 <<< b) - 1)).testBit i)
      = (List.range b).countP (fun i => w.testBit i) := by
    apply List.countP_congr
    intro x hx
    rw [List.mem_range] at hx
    rw [hmask x]
    simp [hx]
  have h2 : ((List.range c).map (fun x => b + x)).countP
      (fun i => (w &&& ((1 <<< b) - 1)).testBit i) = 0 := by
    rw [List.countP_eq_zero]
    intro a ha
    simp only [List.mem_map, List.mem_range] at ha
    obtain ⟨x, hx, rfl⟩ := ha
    rw [hmask]
    simp
  rw [h1, h2, Nat.add_zero]

theorem bitCount_split (d : List Nat) (a b : Nat) :
    bitCount d (a + b)
      = bitCount d a + (List.range b).countP (fun i => Bitmap.get_bit d (a + i)) := by
  unfold bitCount
  rw [List.range_add, List.countP_append, List.countP_map]
  rfl

theorem sum_pop_eq (d : List Nat) (k : Nat) :
    ((List.range k).map (fun i => pop64 (wget d i))).sum = bitCount d (64 * k) := by
  induction k with
  | zero => simp [bitCount]
  | succ n ih =>
    rw [List.range_succ, List.map_append, List.sum_append]
    simp only [List.map_cons, List.map_nil, List.sum_cons, List.sum_nil]
    have e : 64 * (n + 1) = 64 * n + 64 := by ring
    rw [ih, e, bitCount_split]
    congr 1
    unfold pop64
    apply List.countP_congr
    intro x hx
    rw [List.mem_range] at hx
    rw [get_bit_word d n x hx]

theorem rank_eq_bitCount (d : List Nat) (p : Nat) :
    Bitmap.rank d p = bitCount d p := by
  obtain ⟨wi, bi, hlt, rfl⟩ : ∃ wi bi, bi < 64 ∧ 64 * wi + bi = p :=
    ⟨p / 64, p % 64, Nat.mod_lt _ (by norm_num), Nat.div_add_mod p 64⟩
  unfold Bitmap.rank
  simp only [word_div wi bi hlt, word_mod wi bi hlt]
  by_cases h : 0 < bi
  · rw [if_pos h, sum_pop_eq, mask_pop _ _ (le_of_lt hlt), bitCount_split]
    congr 1
    apply List.countP_congr
    intro x hx
    rw [List.mem_range] at hx
    rw [get_bit_word d wi x (lt_trans hx hlt)]
  · rw [if_neg h]
    have h0 : bi = 0 := by omega
    subst h0
    rw [sum_pop_eq, Nat.add_zero]

theorem get_bit_cons_lt (w : Nat) (ws : List Nat) (q : Nat) (h : q < 64) :
    Bitmap.get_bit (w :: ws) q = w.testBit q := by
  have h0 := get_bit_word (w :: ws) 0 q h
  simpa [wget] using h0

theorem get_bit_cons_shift (w : Nat) (ws : List Nat) (q : Nat) :
    Bitmap.get_bit (w :: ws) (64 + q) = Bitmap.get_bit ws q := by
  unfold Bitmap.get_bit
  have hdiv : (64 + q) / 64 = q / 64 + 1 := by
    rw [Nat.add_comm, Nat.add_div_right _ (by norm_num : (0:Nat) < 64)]
  have hmod : (64 + q) % 64 = q % 64 := Nat.add_mod_left 64 q
  rw [hdiv, hmod, wget_cons_succ]

theorem bitCount_cons_lt (w : Nat) (ws : List Nat) (q : Nat) (h : q ≤ 64) :
    bitCount (w :: ws) q = (List.range q).countP (fun i => w.testBit i) := by
  unfold bitCount
  apply List.countP_congr
  intro x hx
  rw [List.mem_range] at hx
  rw [get_bit_cons_lt w ws x (by omega)]

theorem bitCount_cons_shift (w : Nat) (ws : List Nat) (q : Nat) :
    bitCount (w :: ws) (64 + q) = pop64 w + bitCount ws q := by
  rw [bitCount_split (w :: ws) 64 q]
  have h1 : bitCount (w :: ws) 64 = pop64 w := by
    rw [bitCount_cons_lt w ws 64 le_rfl]
    rfl
  have h2 : (List.range q).countP (fun i => Bitmap.get_bit (w :: ws) (64 + i))
      = bitCount ws q := by
    unfold bitCount
    apply List.countP_congr
    intro x hx
    rw [get_bit_cons_shift]
  rw [h1, h2]

theorem popTotal_cons (w : Nat) (ws : List Nat) :
    popTotal (w :: ws) = pop64 w + popTotal ws := by
  simp [popTotal]

theorem siw_sound (w : Nat) :
    ∀ fuel i r p, Bitmap.siw w fuel i r = some p →
      i ≤ p ∧ p < i + fuel ∧ w.testBit p = true ∧
        (List.range' i (p - i)).countP (fun j => w.testBit j) = r := by
  intro fuel
  induction fuel with
  | zero => intro i r p h; simp [Bitmap.siw] at h
  | succ n ih =>
    intro i r p h
    rw [Bitmap.siw] at h
    by_cases hb : w.testBit i
    · rw [if_pos hb] at h
      by_cases hr : r = 0
      · rw [if_pos hr] at h
        injection h with h
        subst h
        refine ⟨le_rfl, by omega, hb, ?_⟩
        simp [hr]
      · rw [if_neg hr] at h
        obtain ⟨h1, h2, h3, h4⟩ := ih (i + 1) (r - 1) p h
        refine ⟨by omega, by omega, h3, ?_⟩
        have hrange : List.range' i (p - i) = i :: List.range' (i + 1) (p - (i + 1)) := by
          have e : p - i = (p - (i + 1)) + 1 := by omega
          rw [e, List.range'_succ]
        rw [hrange, List.countP_cons, h4]
        simp only [hb, if_pos]
        omega
    · rw [if_neg hb] at h
      obtain ⟨h1, h2, h3, h4⟩ := ih (i + 1) r p h
      refine ⟨by omega, by omega, h3, ?_⟩
      have hrange : List.range' i (p - i) = i :: List.range' (i + 1) (p - (i + 1)) := by
        have e : p - i = (p - (i + 1)) + 1 := by omega
        rw [e, List.range'_succ]
      rw [hrange, List.countP_cons, h4]
      simp [hb]

theorem siw_complete (w : Nat) :
    ∀ fuel i r, r < (List.range' i fuel).countP (fun j => w.testBit j) →
      ∃ p, Bitmap.siw w fuel i r = some p := by
  intro fuel
  induction fuel with
  | zero => intro i r h; simp at h
  | succ n ih =>
    intro i r h
    rw [List.range'_succ, List.countP_cons] at h
    by_cases hb : w.testBit i
    · by_cases hr : r = 0
      · exact ⟨i, by simp [Bitmap.siw, hb, hr]⟩
      · have h2 : r - 1 < (List.range' (i + 1) n).countP (fun j => w.testBit j) := by
          simp [hb] at h
          omega
        obtain ⟨p, hp⟩ := ih (i + 1) (r - 1) h2
        exact ⟨p, by simp [Bitmap.siw, hb, hr, hp]⟩
    · have h2 : r < (List.range' (i + 1) n).countP (fun j => w.testBit j) := by
        simp [hb] at h
        omega
      obtain ⟨p, hp⟩ := ih (i + 1) r h2
      exact ⟨p, by simp [Bitmap.siw, hb, hp]⟩

theorem pop64_eq_countP_range' (w : Nat) :
    (List.range' 0 64).countP (fun j => w.testBit j) = pop64 w := by
  rw [← List.range_eq_range']
  rfl

theorem selectGo_some (r : Nat) :
    ∀ ws wi count p, count ≤ r → Bitmap.selectGo r ws wi count = some p →
      ∃ q, p = 64 * wi + q ∧ Bitmap.get_bit ws q = true ∧
        count + bitCount ws q = r := by
  intro ws
  induction ws with
  | nil => intro wi count p hc h; simp [Bitmap.selectGo] at h
  | cons w ws ih =>
    intro wi count p hc h
    rw [Bitmap.selectGo] at h
    by_cases ht : r + 1 ≤ count + pop64 w
    · rw [if_pos ht] at h
      simp only [Option.map_eq_some'] at h
      obtain ⟨p0, hp0, rfl⟩ := h
      rw [Bitmap.select_in_word] at hp0
      obtain ⟨h1, h2, h3, h4⟩ := siw_sound w 64 0 _ p0 hp0
      have hlt : p0 < 64 := by omega
      refine ⟨p0, by ring, ?_, ?_⟩
      · rw [get_bit_cons_lt w ws p0 hlt]
        exact h3
      · rw [bitCount_cons_lt w ws p0 (le_of_lt hlt)]
        have h5 : (List.range' 0 (p0 - 0)).countP (fun j => w.testBit j)
            = (List.range p0).countP (fun j => w.testBit j) := by
          rw [Nat.sub_zero, ← List.range_eq_range']
        rw [← h5, h4]
        omega
    · rw [if_neg ht] at h
      have hc2 : count + pop64 w ≤ r := by omega
      obtain ⟨q2, rfl, hg, hcount⟩ := ih (wi + 1) (count + pop64 w) p hc2 h
      refine ⟨64 + q2, by ring, ?_, ?_⟩
      · rw [get_bit_cons_shift]
        exact hg
      · rw [bitCount_cons_shift]
        omega

theorem selectGo_none (r : Nat) :
    ∀ ws wi count, count ≤ r →
      (Bitmap.selectGo r ws wi count = none ↔ count + popTotal ws ≤ r) := by
  intro ws
  induction ws with
  | nil =>
    intro wi count hc
    simp [Bitmap.selectGo, popTotal]
    omega
  | cons w ws ih =>
    intro wi count hc
    rw [Bitmap.selectGo]
    by_cases ht : r + 1 ≤ count + pop64 w
    · rw [if_pos ht]
      have hbits : r + 1 - count - 1 < (List.range' 0 64).countP (fun j => w.testBit j) := by
        rw [pop64_eq_countP_range']
        omega
      obtain ⟨p0, hp0⟩ := siw_complete w 64 0 _ hbits
      apply iff_of_false
      · intro hcon
        simp [Bitmap.select_in_word, hp0] at hcon
      · rw [popTotal_cons]
        omega
    · rw [if_neg ht]
      rw [ih (wi + 1) (count + pop64 w) (by omega)]
      rw [popTotal_cons]
      omega

/-- C6: rank-select identity of src/bitmap.rs.  For every word-slice
bitmap B and every r below the total popcount, select returns some
position p with rank(B, p) = r and get_bit(B, p) = true; select returns
none exactly when r is at least the total popcount. -/
theorem rank_select_identity (B : List Nat) (r : Nat) :
    (r < popTotal B →
      ∃ p, Bitmap.select B r = some p ∧ Bitmap.rank B p = r ∧
        Bitmap.get_bit B p = true) ∧
    (Bitmap.select B r = none ↔ popTotal B ≤ r) := by
  have hdef : Bitmap.select B r = Bitmap.selectGo r B 0 0 := rfl
  have hnone := selectGo_none r B 0 0 (Nat.zero_le r)
  constructor
  · intro h
    cases hsel : Bitmap.select B r with
    | none =>
      exfalso
      rw [hdef] at hsel
      have := hnone.mp hsel
      omega
    | some p =>
      have hsel2 : Bitmap.selectGo r B 0 0 = some p := by
        rw [← hdef]
        exact hsel
      obtain ⟨q, hq, hg, hcount⟩ := selectGo_some r B 0 0 p (Nat.zero_le r) hsel2
      have hpq : p = q := by omega
      subst hpq
      refine ⟨p, rfl, ?_, hg⟩
      rw [rank_eq_bitCount]
      omega
  · rw [hdef, hnone]
    omega

/-- Witness for C6 at the bitmap [21] (bits 0, 2, 4 set) and rank 1. -/
theorem rank_select_identity_witness :
    1 < popTotal [21] ∧
      (∃ p, Bitmap.select [21] 1 = some p ∧ Bitmap.rank [21] p = 1 ∧
        Bitmap.get_bit [21] p = true) :=
  ⟨by decide, (rank_select_identity [21] 1).1 (by decide)⟩

/-! Characterisation of has_bits_in_range (claim C8). -/

theorem land_ne_zero_iff (x y : Nat) :
    x &&& y ≠ 0 ↔ ∃ i, x.testBit i = true ∧ y.testBit i = true := by
  constructor
  · intro h
    obtain ⟨i, hi, _⟩ := Nat.exists_most_significant_bit h
    rw [Nat.testBit_land] at hi
    exact ⟨i, by simpa using hi⟩
  · rintro ⟨i, hx, hy⟩
    intro h0
    have : (x &&& y).testBit i = true := by
      rw [Nat.testBit_land, hx, hy]
      rfl
    rw [h0, Nat.zero_testBit] at this
    exact Bool.noConfusion this

theorem testBit_MASK64 (i : Nat) :
    MASK64.testBit i = decide (0 ≤ i ∧ i < 64) := by
  unfold MASK64
  rw [Nat.testBit_two_pow_sub_one]
  simp

theorem testBit_maskHigh (sb i : Nat) (h : sb ≤ 64) :
    (MASK64 ^^^ ((1 <<< sb) - 1)).testBit i = decide (sb ≤ i ∧ i < 64) := by
  unfold MASK64
  rw [Nat.one_shiftLeft, Nat.testBit_xor, Nat.testBit_two_pow_sub_one,
    Nat.testBit_two_pow_sub_one]
  by_cases h1 : i < sb <;> by_cases h2 : i < 64 <;>
    simp [h1, h2] <;> omega

theorem testBit_maskLow (eb i : Nat) :
    ((1 <<< eb) - 1).testBit i = decide (0 ≤ i ∧ i < eb) := by
  rw [Nat.one_shiftLeft, Nat.testBit_two_pow_sub_one]
  simp

theorem testBit_maskMid (sb eb i : Nat) (hsb : sb ≤ 64) (heb : eb ≤ 64) :
    (((1 <<< eb) - 1) &&& (MASK64 ^^^ ((1 <<< sb) - 1))).testBit i
      = decide (sb ≤ i ∧ i < eb) := by
  rw [Nat.testBit_land, testBit_maskLow, testBit_maskHigh sb i hsb]
  by_cases h1 : i < eb <;> by_cases h2 : sb ≤ i <;>
    simp [h1, h2] <;> omega

theorem masked_word_iff (d : List Nat) (k a b m : Nat)
    (hm : ∀ i, m.testBit i = decide (a ≤ i ∧ i < b)) (hb : b ≤ 64) :
    ((wget d k) &&& m ≠ 0 ↔
      ∃ p, 64 * k + a ≤ p ∧ p < 64 * k + b ∧ Bitmap.get_bit d p = true) := by
  rw [land_ne_zero_iff]
  constructor
  · rintro ⟨i, hw, hmi⟩
    rw [hm i] at hmi
    have hab : a ≤ i ∧ i < b := of_decide_eq_true hmi
    refine ⟨64 * k + i, by omega, by omega, ?_⟩
    rw [get_bit_word d k i (by omega)]
    exact hw
  · rintro ⟨p, h1, h2, hg⟩
    refine ⟨p - 64 * k, ?_, ?_⟩
    · have hplt : p - 64 * k < 64 := by omega
      have hpe : p = 64 * k + (p - 64 * k) := by omega
      rw [hpe, get_bit_word d k _ hplt] at hg
      exact hg
    · rw [hm]
      simp only [decide_eq_true_eq]
      omega

theorem anyNZ_iff (d : List Nat) :
    ∀ n a, Bitmap.anyNZ d a n = true ↔ ∃ k, a ≤ k ∧ k < a + n ∧ wget d k ≠ 0 := by
  intro n
  induction n with
  | zero =>
    intro a
    simp [Bitmap.anyNZ]
    omega
  | succ m ih =>
    intro a
    rw [Bitmap.anyNZ]
    by_cases h0 : wget d a = 0
    · rw [if_pos h0, ih (a + 1)]
      constructor
      · rintro ⟨k, h1, h2, h3⟩
        exact ⟨k, by omega, by omega, h3⟩
      · rintro ⟨k, h1, h2, h3⟩
        refine ⟨k, ?_, by omega, h3⟩
        rcases Nat.eq_or_lt_of_le h1 with he | hl
        · exact absurd (he ▸ h0) h3
        · omega
    · rw [if_neg h0]
      constructor
      · intro _
        exact ⟨a, le_rfl, by omega, h0⟩
      · intro _
        rfl

theorem wget_lt (d : List Nat) (hword : ∀ w ∈ d, w < 2 ^ 64) (k : Nat) :
    wget d k < 2 ^ 64 := by
  unfold wget
  rw [List.getD_eq_getElem?_getD]
  cases h : d[k]? with
  | none => simp
  | some w =>
    simp only [Option.getD_some]
    exact hword w (List.getElem?_mem h)

theorem word_nonzero_iff (d : List Nat) (k : Nat) (hw : wget d k < 2 ^ 64) :
    wget d k ≠ 0 ↔
      ∃ p, 64 * k ≤ p ∧ p < 64 * k + 64 ∧ Bitmap.get_bit d p = true := by
  constructor
  · intro h
    obtain ⟨i, hi, _⟩ := Nat.exists_most_significant_bit h
    have hilt : i < 64 := by
      by_contra hge
      have h1 : (2:Nat) ^ 64 ≤ 2 ^ i := Nat.pow_le_pow_right (by norm_num) (by omega)
      have h2 := Nat.testBit_implies_ge hi
      omega
    refine ⟨64 * k + i, by omega, by omega, ?_⟩
    rw [get_bit_word d k i hilt]
    exact hi
  · rintro ⟨p, h1, h2, hg⟩
    have hplt : p - 64 * k < 64 := by omega
    have hpe : p = 64 * k + (p - 64 * k) := by omega
    rw [hpe, get_bit_word d k _ hplt] at hg
    intro h0
    rw [h0, Nat.zero_testBit] at hg
    exact Bool.noConfusion hg

theorem anyNZ_bits_iff (d : List Nat) (hword : ∀ w ∈ d, w < 2 ^ 64) (a n : Nat) :
    Bitmap.anyNZ d a n = true ↔
      ∃ p, 64 * a ≤ p ∧ p < 64 * (a + n) ∧ Bitmap.get_bit d p = true := by
  rw [anyNZ_iff]
  constructor
  · rintro ⟨k, h1, h2, h3⟩
    obtain ⟨p, hp1, hp2, hp3⟩ := (word_nonzero_iff d k (wget_lt d hword k)).mp h3
    exact ⟨p, by omega, by omega, hp3⟩
  · rintro ⟨p, h1, h2, h3⟩
    refine ⟨p / 64, by omega, by omega, ?_⟩
    exact (word_nonzero_iff d (p / 64) (wget_lt d hword (p / 64))).mpr
      ⟨p, by omega, by omega, h3⟩

/-- C8: has_bits_in_range of src/bitmap.rs returns true exactly when some
position in [lo, hi) carries a set bit, for any u64 word slice and any
hi within the bitmap; it returns false whenever lo >= hi. -/
theorem has_bits_in_range_spec (d : List Nat) (lo hi : Nat)
    (hword : ∀ w ∈ d, w < 2 ^ 64) (hhi : hi ≤ 64 * d.length) :
    (Bitmap.has_bits_in_range d lo hi = true ↔
      ∃ p, lo ≤ p ∧ p < hi ∧ Bitmap.get_bit d p = true) ∧
    (hi ≤ lo → Bitmap.has_bits_in_range d lo hi = false) := by
  have htriv : hi ≤ lo → Bitmap.has_bits_in_range d lo hi = false := by
    intro h
    unfold Bitmap.has_bits_in_range
    rw [if_pos h]
  refine ⟨?_, htriv⟩
  by_cases hle : hi ≤ lo
  · rw [htriv hle]
    constructor
    · intro h
      exact absurd h (by simp)
    · rintro ⟨p, h1, h2, h3⟩
      omega
  · simp only [Bitmap.has_bits_in_range]
    rw [if_neg hle]
    by_cases hsw : lo / 64 = (hi - 1) / 64
    · rw [if_pos hsw]
      have hswlen : lo / 64 < d.length := by omega
      rw [if_pos hswlen]
      by_cases heb : hi % 64 = 0
      · rw [if_pos heb, decide_eq_true_eq]
        have hm := masked_word_iff d (lo / 64) (lo % 64) 64
          (MASK64 ^^^ ((1 <<< (lo % 64)) - 1))
          (fun i => testBit_maskHigh (lo % 64) i (by omega)) le_rfl
        rw [hm]
        constructor
        · rintro ⟨p, h1, h2, h3⟩
          exact ⟨p, by omega, by omega, h3⟩
        · rintro ⟨p, h1, h2, h3⟩
          exact ⟨p, by omega, by omega, h3⟩
      · rw [if_neg heb, decide_eq_true_eq]
        have hm := masked_word_iff d (lo / 64) (lo % 64) (hi % 64)
          (((1 <<< (hi % 64)) - 1) &&& (MASK64 ^^^ ((1 <<< (lo % 64)) - 1)))
          (fun i => testBit_maskMid (lo % 64) (hi % 64) i (by omega) (by omega))
          (by omega)
        rw [hm]
        constructor
        · rintro ⟨p, h1, h2, h3⟩
          exact ⟨p, by omega, by omega, h3⟩
        · rintro ⟨p, h1, h2, h3⟩
          exact ⟨p, by omega, by omega, h3⟩
    · rw [if_neg hsw]
      have hlt : lo / 64 < (hi - 1) / 64 := by omega
      have hswlen : lo / 64 < d.length := by omega
      have hewlen : (hi - 1) / 64 < d.length := by omega
      rw [if_pos hswlen, if_pos hewlen]
      rw [Nat.min_eq_left (le_of_lt hewlen)]
      have hA : ((wget d (lo / 64)) &&& (MASK64 ^^^ ((1 <<< (lo % 64)) - 1)) ≠ 0)
          ↔ ∃ p, lo ≤ p ∧ p < 64 * (lo / 64) + 64 ∧ Bitmap.get_bit d p = true := by
        have hm := masked_word_iff d (lo / 64) (lo % 64) 64
          (MASK64 ^^^ ((1 <<< (lo % 64)) - 1))
          (fun i => testBit_maskHigh (lo % 64) i (by omega)) le_rfl
        rw [hm]
        constructor
        · rintro ⟨p, h1, h2, h3⟩
          exact ⟨p, by omega, by omega, h3⟩
        · rintro ⟨p, h1, h2, h3⟩
          exact ⟨p, by omega, by omega, h3⟩
      have hB : Bitmap.anyNZ d (lo / 64 + 1) ((hi - 1) / 64 - (lo / 64 + 1)) = true
          ↔ ∃ p, 64 * (lo / 64 + 1) ≤ p ∧ p < 64 * ((hi - 1) / 64) ∧
              Bitmap.get_bit d p = true := by
        rw [anyNZ_bits_iff d hword]
        have he : (lo / 64 + 1) + ((hi - 1) / 64 - (lo / 64 + 1)) = (hi - 1) / 64 := by
          omega
        rw [he]
      by_cases heb : hi % 64 = 0
      · rw [if_pos heb]
        have hC : ((wget d ((hi - 1) / 64)) &&& MASK64 ≠ 0)
            ↔ ∃ p, 64 * ((hi - 1) / 64) ≤ p ∧ p < hi ∧ Bitmap.get_bit d p = true := by
          have hm := masked_word_iff d ((hi - 1) / 64) 0 64 MASK64
            testBit_MASK64 le_rfl
          rw [hm]
          constructor
          · rintro ⟨p, h1, h2, h3⟩
            refine ⟨p, ?_, ?_, h3⟩ <;> (clear hm hA hB; omega)
          · rintro ⟨p, h1, h2, h3⟩
            refine ⟨p, ?_, ?_, h3⟩ <;> (clear hm hA hB; omega)
        rw [Bool.or_eq_true, Bool.or_eq_true, decide_eq_true_eq, decide_eq_true_eq]
        rw [hA, hB, hC]
        constructor
        · rintro ((⟨p, h1, h2, h3⟩ | ⟨p, h1, h2, h3⟩) | ⟨p, h1, h2, h3⟩) <;>
            (refine ⟨p, ?_, ?_, h3⟩ <;> (clear hA hB hC; omega))
        · rintro ⟨p, h1, h2, h3⟩
          by_cases hc1 : p < 64 * (lo / 64) + 64
          · exact Or.inl (Or.inl ⟨p, by omega, by omega, h3⟩)
          · by_cases hc2 : p < 64 * ((hi - 1) / 64)
            · exact Or.inl (Or.inr ⟨p, by omega, by omega, h3⟩)
            · exact Or.inr ⟨p, by omega, by omega, h3⟩
      · rw [if_neg heb]
        have hC : ((wget d ((hi - 1) / 64)) &&& ((1 <<< (hi % 64)) - 1) ≠ 0)
            ↔ ∃ p, 64 * ((hi - 1) / 64) ≤ p ∧ p < hi ∧ Bitmap.get_bit d p = true := by
          have hm := masked_word_iff d ((hi - 1) / 64) 0 (hi % 64)
            ((1 <<< (hi % 64)) - 1) (testBit_maskLow (hi % 64)) (by omega)
          rw [hm]
          constructor
          · rintro ⟨p, h1, h2, h3⟩
            refine ⟨p, ?_, ?_, h3⟩ <;> (clear hm hA hB; omega)
          · rintro ⟨p, h1, h2, h3⟩
            refine ⟨p, ?_, ?_, h3⟩ <;> (clear hm hA hB; omega)
        rw [Bool.or_eq_true, Bool.or_eq_true, decide_eq_true_eq, decide_eq_true_eq]
        rw [hA, hB, hC]
        constructor
        · rintro ((⟨p, h1, h2, h3⟩ | ⟨p, h1, h2, h3⟩) | ⟨p, h1, h2, h3⟩) <;>
            (refine ⟨p, ?_, ?_, h3⟩ <;> (clear hA hB hC; omega))
        · rintro ⟨p, h1, h2, h3⟩
          by_cases hc1 : p < 64 * (lo / 64) + 64
          · exact Or.inl (Or.inl ⟨p, by omega, by omega, h3⟩)
          · by_cases hc2 : p < 64 * ((hi - 1) / 64)
            · exact Or.inl (Or.inr ⟨p, by omega, by omega, h3⟩)
            · exact Or.inr ⟨p, by omega, by omega, h3⟩

/-- Witness for C8: bit 5 of the two-word bitmap [1056, 8] lies in [5, 6)
and in the multi-word range [3, 126), and an inverted range gives false. -/
theorem has_bits_in_range_spec_witness :
    Bitmap.has_bits_in_range [1056, 8] 5 6 = true ∧
    Bitmap.has_bits_in_range [1056, 8] 3 126 = true ∧
    Bitmap.has_bits_in_range [1056, 8] 15 10 = false :=
  ⟨(has_bits_in_range_spec [1056, 8] 5 6 (by decide) (by decide)).1.mpr
      ⟨5, by decide, by decide, by decide⟩,
   (has_bits_in_range_spec [1056, 8] 3 126 (by decide) (by decide)).1.mpr
      ⟨67, by decide, by decide, by decide⟩,
   (has_bits_in_range_spec [1056, 8] 15 10 (by decide) (by decide)).2 (by decide)⟩

/-! Characterisation of write_slot and read_slot (claim C7). -/

theorem wget_set (d : List Nat) (i v k : Nat) :
    wget (d.set i v) k = if i = k ∧ i < d.length then v else wget d k := by
  unfold wget
  rw [List.getD_eq_getElem?_getD, List.getD_eq_getElem?_getD]
  by_cases h : i = k ∧ i < d.length
  · obtain ⟨rfl, hlen⟩ := h
    rw [List.getElem?_set_self hlen, if_pos ⟨rfl, hlen⟩]
    rfl
  · rw [if_neg h]
    by_cases he : i = k
    · subst he
      have hlen : d.length ≤ i := by
        rcases Nat.lt_or_ge i d.length with hc | hc
        · exact absurd ⟨rfl, hc⟩ h
        · exact hc
      rw [List.set_eq_of_length_le hlen]
    · rw [List.getElem?_set_ne he]

theorem get_bit_set (d : List Nat) (i v P : Nat) :
    Bitmap.get_bit (d.set i v) P =
      if i = P / 64 ∧ i < d.length then v.testBit (P % 64)
      else Bitmap.get_bit d P := by
  unfold Bitmap.get_bit
  rw [wget_set]
  by_cases h : i = P / 64 ∧ i < d.length
  · rw [if_pos h, if_pos h]
  · rw [if_neg h, if_neg h]

theorem testBit_wmask (R off b : Nat) (hb : b < 64) :
    ((((1 <<< R) - 1) <<< off) % 2 ^ 64).testBit b
      = decide (off ≤ b ∧ b < off + R) := by
  rw [Nat.testBit_mod_two_pow, Nat.testBit_shiftLeft, Nat.one_shiftLeft,
    Nat.testBit_two_pow_sub_one]
  by_cases h1 : off ≤ b
  · by_cases h2 : b < off + R
    · have h3 : b - off < R := by omega
      simp [h1, h2, h3, hb]
    · have h3 : ¬ b - off < R := by omega
      simp [h1, h2, h3, hb]
  · have h3 : ¬ b ≥ off := by omega
    simp [h1, h3, hb]

theorem testBit_keep (R off b : Nat) (hb : b < 64) :
    (MASK64 ^^^ ((((1 <<< R) - 1) <<< off) % 2 ^ 64)).testBit b
      = !(decide (off ≤ b ∧ b < off + R)) := by
  rw [Nat.testBit_xor, testBit_MASK64, testBit_wmask R off b hb]
  have h0 : (0 ≤ b ∧ b < 64) := ⟨Nat.zero_le b, hb⟩
  simp [h0]

theorem testBit_newbits (rem R off b : Nat) (hb : b < 64) :
    ((((rem &&& ((1 <<< R) - 1)) <<< off) % 2 ^ 64)).testBit b
      = (decide (off ≤ b ∧ b < off + R) && rem.testBit (b - off)) := by
  rw [Nat.testBit_mod_two_pow, Nat.testBit_shiftLeft, Nat.testBit_land,
    Nat.one_shiftLeft, Nat.testBit_two_pow_sub_one]
  by_cases h1 : off ≤ b
  · by_cases h2 : b < off + R
    · have h3 : b - off < R := by omega
      simp [h1, h2, h3, hb]
    · have h3 : ¬ b - off < R := by omega
      simp [h1, h2, h3, hb]
  · have h3 : ¬ b ≥ off := by omega
    simp [h1, h3, hb]

theorem testBit_keep_ov (ov b : Nat) (hov : ov ≤ 64) (hb : b < 64) :
    (MASK64 ^^^ ((1 <<< ov) - 1)).testBit b = !(decide (b < ov)) := by
  rw [testBit_maskHigh ov b hov]
  by_cases h1 : b < ov
  · have h2 : ¬ (ov ≤ b ∧ b < 64) := by omega
    simp [h1, h2]
  · have h2 : ov ≤ b ∧ b < 64 := by omega
    simp [h1, h2]


theorem write_slot_get_bit (s : List Nat) (idx rem R : Nat)
    (hR0 : 0 < R) (hR : R < 64) (hrem : rem < 2 ^ R)
    (hb : idx * R + R ≤ 64 * s.length) (P : Nat) :
    Bitmap.get_bit (write_slot s idx rem R) P =
      if idx * R ≤ P ∧ P < idx * R + R then rem.testBit (P - idx * R)
      else Bitmap.get_bit s P := by
  have hwi : idx * R / 64 < s.length := by omega
  obtain ⟨k, b, hblt, rfl⟩ : ∃ k b, b < 64 ∧ 64 * k + b = P :=
    ⟨P / 64, P % 64, Nat.mod_lt _ (by norm_num), Nat.div_add_mod P 64⟩
  simp only [write_slot, write_slot_at]
  by_cases hstr : 64 < idx * R % 64 + R
  · rw [if_pos hstr]
    have hwi1 : idx * R / 64 + 1 < s.length := by omega
    have c2 : ¬ idx * R / 64 = idx * R / 64 + 1 := by omega
    simp only [wget_set, List.length_set, Nat.zero_add, eq_self_iff_true,
      true_and, hwi, hwi1, c2, if_true, false_and, if_false]
    simp only [List.set_set]
    rw [get_bit_set, List.length_set, word_div k b hblt, word_mod k b hblt]
    by_cases hk2 : idx * R / 64 + 1 = k
    · rw [if_pos ⟨hk2, hwi1⟩]
      rw [Nat.testBit_lor, Nat.testBit_land,
        testBit_keep_ov (idx * R % 64 + R - 64) b (by omega) hblt,
        Nat.testBit_shiftRight]
      by_cases hbv : b < idx * R % 64 + R - 64
      · rw [if_pos (by omega : idx * R ≤ 64 * k + b ∧ 64 * k + b < idx * R + R)]
        have harg : R - (idx * R % 64 + R - 64) + b = 64 * k + b - idx * R := by
          omega
        rw [harg]
        simp [hbv]
      · rw [if_neg (by omega :
          ¬ (idx * R ≤ 64 * k + b ∧ 64 * k + b < idx * R + R))]
        have hremb : rem.testBit (R - (idx * R % 64 + R - 64) + b) = false := by
          apply Nat.testBit_eq_false_of_lt
          calc rem < 2 ^ R := hrem
          _ ≤ 2 ^ (R - (idx * R % 64 + R - 64) + b) :=
            Nat.pow_le_pow_right (by norm_num) (by omega)
        rw [hremb, get_bit_word s k b hblt, ← hk2]
        simp [hbv]
    · rw [if_neg (fun hcon => hk2 hcon.1)]
      rw [get_bit_set, word_div k b hblt, word_mod k b hblt]
      by_cases hk1 : idx * R / 64 = k
      · rw [if_pos ⟨hk1, hwi⟩]
        rw [Nat.testBit_lor, Nat.testBit_land,
          testBit_keep R (idx * R % 64) b hblt,
          testBit_newbits rem R (idx * R % 64) b hblt]
        by_cases hbr : idx * R % 64 ≤ b ∧ b < idx * R % 64 + R
        · rw [if_pos (by omega : idx * R ≤ 64 * k + b ∧ 64 * k + b < idx * R + R)]
          have harg : b - idx * R % 64 = 64 * k + b - idx * R := by omega
          rw [harg]
          simp [hbr]
        · rw [if_neg (by omega :
            ¬ (idx * R ≤ 64 * k + b ∧ 64 * k + b < idx * R + R))]
          rw [get_bit_word s k b hblt, ← hk1]
          simp [hbr]
      · rw [if_neg (fun hcon => hk1 hcon.1)]
        rw [if_neg (by omega :
          ¬ (idx * R ≤ 64 * k + b ∧ 64 * k + b < idx * R + R))]
  · rw [if_neg hstr]
    simp only [wget_set, List.length_set, Nat.zero_add, eq_self_iff_true,
      true_and, hwi, if_true]
    simp only [List.set_set]
    rw [get_bit_set, word_div k b hblt, word_mod k b hblt]
    by_cases hk1 : idx * R / 64 = k
    · rw [if_pos ⟨hk1, hwi⟩]
      rw [Nat.testBit_lor, Nat.testBit_land,
        testBit_keep R (idx * R % 64) b hblt,
        testBit_newbits rem R (idx * R % 64) b hblt]
      by_cases hbr : idx * R % 64 ≤ b ∧ b < idx * R % 64 + R
      · rw [if_pos (by omega : idx * R ≤ 64 * k + b ∧ 64 * k + b < idx * R + R)]
        have harg : b - idx * R % 64 = 64 * k + b - idx * R := by omega
        rw [harg]
        simp [hbr]
      · rw [if_neg (by omega :
          ¬ (idx * R ≤ 64 * k + b ∧ 64 * k + b < idx * R + R))]
        rw [get_bit_word s k b hblt, ← hk1]
        simp [hbr]
    · rw [if_neg (fun hcon => hk1 hcon.1)]
      rw [if_neg (by omega :
        ¬ (idx * R ≤ 64 * k + b ∧ 64 * k + b < idx * R + R))]

theorem read_slot_raw_testBit (s : List Nat) (idx R : Nat)
    (hword : ∀ w ∈ s, w < 2 ^ 64) (hR0 : 0 < R) (hR : R < 64) (b : Nat) :
    (read_slot_raw s idx R).testBit b
      = (decide (b < R) && Bitmap.get_bit s (idx * R + b)) := by
  simp only [read_slot_raw]
  by_cases hstr : 64 < idx * R % 64 + R
  · rw [if_pos hstr]
    rw [Nat.testBit_lor, Nat.testBit_land, Nat.testBit_shiftRight,
      Nat.one_shiftLeft, Nat.testBit_two_pow_sub_one, Nat.testBit_shiftLeft,
      Nat.testBit_land, Nat.one_shiftLeft, Nat.testBit_two_pow_sub_one]
    by_cases hbR : b < R
    · by_cases hob : idx * R % 64 + b < 64
      · have he : idx * R + b = 64 * (idx * R / 64) + (idx * R % 64 + b) := by
          omega
        rw [he, get_bit_word s (idx * R / 64) (idx * R % 64 + b) hob]
        have hhigh : ¬ b ≥ R - (idx * R % 64 + R - 64) := by omega
        simp [hbR, hhigh]
      · have he : idx * R + b
            = 64 * (idx * R / 64 + 1) + (idx * R % 64 + b - 64) := by omega
        rw [he, get_bit_word s (idx * R / 64 + 1) (idx * R % 64 + b - 64)
          (by omega)]
        have hlow : (wget s (idx * R / 64)).testBit (idx * R % 64 + b) = false := by
          apply Nat.testBit_eq_false_of_lt
          calc wget s (idx * R / 64) < 2 ^ 64 := wget_lt s hword _
          _ ≤ 2 ^ (idx * R % 64 + b) := Nat.pow_le_pow_right (by norm_num) (by omega)
        have hhigh : b ≥ R - (idx * R % 64 + R - 64) := by omega
        have harg : b - (R - (idx * R % 64 + R - 64)) = idx * R % 64 + b - 64 := by
          omega
        have harg2 : idx * R % 64 + b - 64 < idx * R % 64 + R - 64 := by omega
        rw [harg]
        simp [hbR, hhigh, hlow, harg2]
    · have hhigh2 : ¬ b - (R - (idx * R % 64 + R - 64)) < idx * R % 64 + R - 64 := by
        omega
      simp [hbR, hhigh2]
  · rw [if_neg hstr]
    rw [Nat.testBit_land, Nat.testBit_shiftRight, Nat.one_shiftLeft,
      Nat.testBit_two_pow_sub_one]
    by_cases hbR : b < R
    · have he : idx * R + b = 64 * (idx * R / 64) + (idx * R % 64 + b) := by omega
      rw [he, get_bit_word s (idx * R / 64) (idx * R % 64 + b) (by omega)]
      simp [hbR]
    · simp [hbR]

theorem bounded_set (d : List Nat) (i v : Nat) (hd : ∀ w ∈ d, w < 2 ^ 64)
    (hv : v < 2 ^ 64) : ∀ w ∈ d.set i v, w < 2 ^ 64 := by
  intro w hw
  rcases List.mem_or_eq_of_mem_set hw with h | h
  · exact hd w h
  · rw [h]
    exact hv

theorem write_slot_words_lt (s : List Nat) (idx rem R : Nat)
    (hrem : rem < 2 ^ R) (hR : R < 64) (hword : ∀ w ∈ s, w < 2 ^ 64) :
    ∀ w ∈ write_slot s idx rem R, w < 2 ^ 64 := by
  have hmask : MASK64 < 2 ^ 64 := by decide
  have hb1 : ∀ x m : Nat, x &&& (MASK64 ^^^ m % 2 ^ 64) < 2 ^ 64 := fun x m =>
    lt_of_le_of_lt Nat.and_le_right
      (Nat.xor_lt_two_pow hmask (Nat.mod_lt _ (by norm_num)))
  have hb2 : ∀ x ov : Nat, ov ≤ 64 → x &&& (MASK64 ^^^ ((1 <<< ov) - 1)) < 2 ^ 64 := by
    intro x ov hov
    apply lt_of_le_of_lt Nat.and_le_right
    apply Nat.xor_lt_two_pow hmask
    rw [Nat.one_shiftLeft]
    have h1 : (2:Nat) ^ ov ≤ 2 ^ 64 := Nat.pow_le_pow_right (by norm_num) hov
    have h2 : (0:Nat) < 2 ^ ov := Nat.pow_pos (by norm_num)
    omega
  have hnb : ∀ y : Nat, y % 2 ^ 64 < 2 ^ 64 := fun y => Nat.mod_lt _ (by norm_num)
  have hshr : ∀ k : Nat, rem >>> k < 2 ^ 64 := by
    intro k
    rw [Nat.shiftRight_eq_div_pow]
    have h1 := Nat.div_le_self rem (2 ^ k)
    have h2 : (2:Nat) ^ R ≤ 2 ^ 64 := Nat.pow_le_pow_right (by norm_num) (by omega)
    omega
  simp only [write_slot, write_slot_at]
  by_cases hstr : 64 < idx * R % 64 + R
  · rw [if_pos hstr]
    apply bounded_set
    · apply bounded_set
      · apply bounded_set
        · exact bounded_set _ _ _ hword (hb1 _ _)
        · exact Nat.or_lt_two_pow
            (wget_lt _ (bounded_set _ _ _ hword (hb1 _ _)) _) (hnb _)
      · exact hb2 _ _ (by omega)
    · apply Nat.or_lt_two_pow
      · apply wget_lt
        apply bounded_set
        · apply bounded_set
          · exact bounded_set _ _ _ hword (hb1 _ _)
          · exact Nat.or_lt_two_pow
              (wget_lt _ (bounded_set _ _ _ hword (hb1 _ _)) _) (hnb _)
        · exact hb2 _ _ (by omega)
      · exact hshr _
  · rw [if_neg hstr]
    apply bounded_set
    · exact bounded_set _ _ _ hword (hb1 _ _)
    · exact Nat.or_lt_two_pow
        (wget_lt _ (bounded_set _ _ _ hword (hb1 _ _)) _) (hnb _)

/-- C7: packed-slot round trip for write_slot and read_slot of
src/infix_store.rs.  For any u64 slots slice, any remainder width
0 < R < 64, any in-bounds slot and any remainder below 2^R, reading the
slot after writing it returns the remainder, and every other in-bounds
slot reads as before the write - including slots straddling a word
boundary. -/
theorem write_read_slot_roundtrip (slots : List Nat) (idx rem R : Nat)
    (hword : ∀ w ∈ slots, w < 2 ^ 64)
    (hR0 : 0 < R) (hR : R < 64) (hrem : rem < 2 ^ R)
    (hin : (idx + 1) * R ≤ 64 * slots.length) :
    read_slot_raw (write_slot slots idx rem R) idx R = rem ∧
    ∀ j, j ≠ idx → (j + 1) * R ≤ 64 * slots.length →
      read_slot_raw (write_slot slots idx rem R) j R = read_slot_raw slots j R := by
  have he1 : (idx + 1) * R = idx * R + R := by ring
  have hb : idx * R + R ≤ 64 * slots.length := by omega
  have hword2 := write_slot_words_lt slots idx rem R hrem hR hword
  constructor
  · apply Nat.eq_of_testBit_eq
    intro b
    rw [read_slot_raw_testBit _ idx R hword2 hR0 hR b]
    by_cases hbR : b < R
    · rw [write_slot_get_bit slots idx rem R hR0 hR hrem hb (idx * R + b)]
      rw [if_pos (by omega : idx * R ≤ idx * R + b ∧ idx * R + b < idx * R + R)]
      have harg : idx * R + b - idx * R = b := by omega
      rw [harg]
      simp [hbR]
    · have hfb : rem.testBit b = false :=
        Nat.testBit_eq_false_of_lt
          (lt_of_lt_of_le hrem (Nat.pow_le_pow_right (by norm_num) (by omega)))
      simp [hbR, hfb]
  · intro j hj hjin
    have he2 : (j + 1) * R = j * R + R := by ring
    apply Nat.eq_of_testBit_eq
    intro b
    rw [read_slot_raw_testBit _ j R hword2 hR0 hR b,
      read_slot_raw_testBit slots j R hword hR0 hR b]
    by_cases hbR : b < R
    · rw [write_slot_get_bit slots idx rem R hR0 hR hrem hb (j * R + b)]
      have hdisj : ¬ (idx * R ≤ j * R + b ∧ j * R + b < idx * R + R) := by
        rcases Nat.lt_or_ge j idx with hc | hc
        · have hm : (j + 1) * R ≤ idx * R := Nat.mul_le_mul_right R (by omega)
          omega
        · have hgt : idx < j := by omega
          have hm : (idx + 1) * R ≤ j * R := Nat.mul_le_mul_right R (by omega)
          omega
      rw [if_neg hdisj]
    · simp [hbR]

/-- Witness for C7: write remainder 1023 into slot 6 of a zeroed two-word
slice with R = 10; the slot straddles the word boundary at bit 60. -/
theorem write_read_slot_roundtrip_witness :
    read_slot_raw (write_slot [0, 0] 6 1023 10) 6 10 = 1023 ∧
    read_slot_raw (write_slot [0, 0] 6 1023 10) 0 10 = read_slot_raw [0, 0] 0 10 := by
  have h := write_read_slot_roundtrip [0, 0] 6 1023 10 (by decide) (by decide)
    (by decide) (by decide) (by decide)
  exact ⟨h.1, h.2 0 (by decide) (by decide)⟩

/-! Field preservation through the shift loops and resize (claims C3, C4, C9). -/

/-- DataOnly t s holds when t and s agree on every field except data. -/
def DataOnly (t s : InfixStore) : Prop :=
  t.elem_count = s.elem_count ∧ t.size_grade = s.size_grade ∧
    t.remainder_size = s.remainder_size ∧ t.quotient_size = s.quotient_size

theorem dataOnly_refl (s : InfixStore) : DataOnly s s := ⟨rfl, rfl, rfl, rfl⟩

theorem dataOnly_data (s : InfixStore) (d : List Nat) :
    DataOnly { s with data := d } s := ⟨rfl, rfl, rfl, rfl⟩

theorem dataOnly_trans {u t s : InfixStore} (h1 : DataOnly u t)
    (h2 : DataOnly t s) : DataOnly u s := by
  obtain ⟨a1, a2, a3, a4⟩ := h1
  obtain ⟨b1, b2, b3, b4⟩ := h2
  exact ⟨a1.trans b1, a2.trans b2, a3.trans b3, a4.trans b4⟩

theorem shift_slots_right_go_dataOnly :
    ∀ n s p, DataOnly (InfixStore.shift_slots_right_go s p n) s := by
  intro n
  induction n with
  | zero => intro s p; exact dataOnly_refl s
  | succ m ih =>
    intro s p
    rw [InfixStore.shift_slots_right_go]
    exact dataOnly_trans (ih _ p) (dataOnly_data s _)

theorem shift_runends_right_go_dataOnly :
    ∀ n s p, DataOnly (InfixStore.shift_runends_right_go s p n) s := by
  intro n
  induction n with
  | zero => intro s p; exact dataOnly_refl s
  | succ m ih =>
    intro s p
    rw [InfixStore.shift_runends_right_go]
    by_cases h : InfixStore.is_runend s (p + m)
    · rw [if_pos h]
      exact dataOnly_trans (ih _ p) (dataOnly_data s _)
    · rw [if_neg h]
      exact dataOnly_trans (ih _ p) (dataOnly_data s _)

theorem shift_slots_left_go_dataOnly :
    ∀ n s i, DataOnly (InfixStore.shift_slots_left_go s i n) s := by
  intro n
  induction n with
  | zero => intro s i; exact dataOnly_refl s
  | succ m ih =>
    intro s i
    rw [InfixStore.shift_slots_left_go]
    exact dataOnly_trans (ih _ _) (dataOnly_data s _)

theorem shift_runends_left_go_dataOnly :
    ∀ n s i, DataOnly (InfixStore.shift_runends_left_go s i n) s := by
  intro n
  induction n with
  | zero => intro s i; exact dataOnly_refl s
  | succ m ih =>
    intro s i
    rw [InfixStore.shift_runends_left_go]
    by_cases h : InfixStore.is_runend s (i + 1)
    · rw [if_pos h]
      exact dataOnly_trans (ih _ _) (dataOnly_data s _)
    · rw [if_neg h]
      exact dataOnly_trans (ih _ _) (dataOnly_data s _)

theorem shift_slots_right_dataOnly (s : InfixStore) (p : Nat) :
    DataOnly (InfixStore.shift_slots_right s p) s :=
  shift_slots_right_go_dataOnly _ s p

theorem shift_runends_right_dataOnly (s : InfixStore) (p : Nat) :
    DataOnly (InfixStore.shift_runends_right s p) s := by
  unfold InfixStore.shift_runends_right
  exact dataOnly_trans (dataOnly_data _ _) (shift_runends_right_go_dataOnly _ s p)

theorem shift_slots_left_dataOnly (s : InfixStore) (p : Nat) :
    DataOnly (InfixStore.shift_slots_left s p) s :=
  shift_slots_left_go_dataOnly _ s p

theorem shift_runends_left_dataOnly (s : InfixStore) (p : Nat) :
    DataOnly (InfixStore.shift_runends_left s p) s := by
  unfold InfixStore.shift_runends_left
  exact dataOnly_trans (dataOnly_data _ _) (shift_runends_left_go_dataOnly _ s p)

/-- insert_core either returns the store unchanged (duplicate) or keeps
every field but data and increments elem_count by exactly one. -/
theorem insert_core_cases (s : InfixStore) (ifx : Nat) :
    InfixStore.insert_core s ifx = s ∨
      ((InfixStore.insert_core s ifx).size_grade = s.size_grade ∧
        (InfixStore.insert_core s ifx).remainder_size = s.remainder_size ∧
        (InfixStore.insert_core s ifx).quotient_size = s.quotient_size ∧
        (InfixStore.insert_core s ifx).elem_count = s.elem_count + 1) := by
  simp only [InfixStore.insert_core]
  cases hpos : InfixStore.ins_pos s (split_qr ifx s.quotient_size s.remainder_size).1
      (split_qr ifx s.quotient_size s.remainder_size).2 with
  | none => exact Or.inl rfl
  | some ip =>
    right
    dsimp only
    have h1a : DataOnly
        (InfixStore.shift_runends_right (InfixStore.shift_slots_right s ip) ip) s :=
      dataOnly_trans (shift_runends_right_dataOnly _ _)
        (shift_slots_right_dataOnly _ _)
    repeat' split
    all_goals refine ⟨?_, ?_, ?_, ?_⟩
    all_goals first
      | rfl
      | exact h1a.2.1
      | exact h1a.2.2.1
      | exact h1a.2.2.2
      | exact congrArg (fun x => x + 1) h1a.1

theorem resize_to_elem_count (s : InfixStore) (g : Nat) :
    (InfixStore.resize_to s g).elem_count = s.elem_count := rfl

theorem resize_to_size_grade (s : InfixStore) (g : Nat) :
    (InfixStore.resize_to s g).size_grade = g := rfl

theorem resize_to_remainder_size (s : InfixStore) (g : Nat) :
    (InfixStore.resize_to s g).remainder_size = s.remainder_size := rfl

theorem insert_core_size_grade (s : InfixStore) (ifx : Nat) :
    (InfixStore.insert_core s ifx).size_grade = s.size_grade := by
  rcases insert_core_cases s ifx with h | h
  · rw [h]
  · exact h.1

/-- C4: insert returns false exactly when the store is full at the top
grade 30, in which case it is unchanged; otherwise it returns true, and
a full store below grade 30 is first resized up one grade. -/
theorem insert_saturation_spec (s : InfixStore) (ifx : Nat)
    (hg : s.size_grade ≤ 30) :
    ((s.insert ifx).1 = false ↔
      (s.num_slots ≤ s.elem_count ∧ s.size_grade = 30)) ∧
    ((s.insert ifx).1 = false → (s.insert ifx).2 = s) ∧
    (s.num_slots ≤ s.elem_count → s.size_grade < 30 →
      ((s.insert ifx).1 = true ∧
        (s.insert ifx).2.size_grade = s.size_grade + 1)) := by
  by_cases hfull : scaled s.size_grade ≤ s.elem_count
  · by_cases hmax : 30 ≤ s.size_grade
    · have hru : InfixStore.resize_up s = (false, s) := by
        unfold InfixStore.resize_up
        rw [if_pos (by unfold SIZE_GRADE_COUNT; omega)]
      have hins : s.insert ifx = (false, s) := by
        unfold InfixStore.insert
        rw [if_pos hfull, hru]
      rw [hins]
      refine ⟨⟨fun _ => ⟨hfull, by omega⟩, fun _ => rfl⟩, fun _ => rfl, ?_⟩
      intro _ hlt
      omega
    · have hru : InfixStore.resize_up s
          = (true, InfixStore.resize_to s (s.size_grade + 1)) := by
        unfold InfixStore.resize_up
        rw [if_neg (by unfold SIZE_GRADE_COUNT; omega)]
      have hins : s.insert ifx = (true,
          InfixStore.insert_core (InfixStore.resize_to s (s.size_grade + 1)) ifx) := by
        unfold InfixStore.insert
        rw [if_pos hfull, hru]
      rw [hins]
      refine ⟨⟨fun hcon => absurd hcon (by simp),
        fun hc => absurd hc.2 (by omega)⟩,
        fun hcon => absurd hcon (by simp), ?_⟩
      intro _ _
      refine ⟨rfl, ?_⟩
      rw [insert_core_size_grade, resize_to_size_grade]
  · have hins : s.insert ifx = (true, InfixStore.insert_core s ifx) := by
      unfold InfixStore.insert
      rw [if_neg hfull]
    rw [hins]
    exact ⟨⟨fun hcon => absurd hcon (by simp), fun hc => absurd hc.1 hfull⟩,
      fun hcon => absurd hcon (by simp), fun hc _ => absurd hc hfull⟩

/-- satStore is a store saturated at the top size grade 30. -/
def satStore : InfixStore := ⟨2326, 30, 8, 10, []⟩

/-- Witness for C4: inserting into the saturated top-grade store fails
and leaves it unchanged. -/
theorem insert_saturation_spec_witness :
    (satStore.insert 7).1 = false ∧ (satStore.insert 7).2 = satStore := by
  have h := insert_saturation_spec satStore 7 (by decide)
  have hcond : satStore.num_slots ≤ satStore.elem_count ∧
      satStore.size_grade = 30 := by decide
  have hfalse := h.1.mpr hcond
  exact ⟨hfalse, h.2.1 hfalse⟩

theorem del_scan_some_iff (s : InfixStore) (r : Nat) :
    ∀ n i, (∃ pos, InfixStore.del_scan s r i n = some pos) ↔
      ∃ p, i ≤ p ∧ p < i + n ∧ s.read_slot p = r := by
  intro n
  induction n with
  | zero =>
    intro i
    constructor
    · rintro ⟨pos, hpos⟩
      simp [InfixStore.del_scan] at hpos
    · rintro ⟨p, h1, h2, _⟩
      omega
  | succ m ih =>
    intro i
    rw [InfixStore.del_scan]
    by_cases h : InfixStore.read_slot s i = r
    · rw [if_pos h]
      constructor
      · intro _
        exact ⟨i, le_rfl, by omega, h⟩
      · intro _
        exact ⟨i, rfl⟩
    · rw [if_neg h]
      rw [ih (i + 1)]
      constructor
      · rintro ⟨p, h1, h2, h3⟩
        exact ⟨p, by omega, by omega, h3⟩
      · rintro ⟨p, h1, h2, h3⟩
        refine ⟨p, ?_, by omega, h3⟩
        rcases Nat.eq_or_lt_of_le h1 with he | hl
        · rw [← he] at h3
          exact absurd h3 h
        · omega

theorem resize_down_snd_elem (s : InfixStore) :
    (InfixStore.resize_down s).2.elem_count = s.elem_count := by
  unfold InfixStore.resize_down
  split <;> rfl

/-- C3: delete returns true exactly when the quotient is occupied and
the located run contains the remainder; a true return decrements
elem_count by exactly one and a false return leaves the store
unchanged. -/
theorem delete_result_spec (s : InfixStore) (ifx : Nat)
    (hec : 0 < s.elem_count) :
    (∀ s2, s.delete ifx = some (false, s2) → s2 = s) ∧
    (∀ s2, s.delete ifx = some (true, s2) →
      s2.elem_count + 1 = s.elem_count) ∧
    ((∃ s2, s.delete ifx = some (true, s2)) ↔
      (s.is_occupied (split_qr ifx s.quotient_size s.remainder_size).1 = true ∧
        match Bitmap.select (InfixStore.runSlice s)
            (InfixStore.run_index_of s
              (split_qr ifx s.quotient_size s.remainder_size).1) with
        | none => False
        | some re => ∃ p, p < re + 1 ∧
            InfixStore.run_start_of s
              (split_qr ifx s.quotient_size s.remainder_size).1 ≤ p ∧
            s.read_slot p = (split_qr ifx s.quotient_size s.remainder_size).2)) := by
  simp only [InfixStore.delete]
  set q := (split_qr ifx s.quotient_size s.remainder_size).1 with hq
  set r := (split_qr ifx s.quotient_size s.remainder_size).2 with hr
  by_cases hocc : InfixStore.is_occupied s q = true
  · rw [if_neg (show ¬ ((!InfixStore.is_occupied s q) = true) by simp [hocc])]
    cases hsel : Bitmap.select (InfixStore.runSlice s)
        (InfixStore.run_index_of s q) with
    | none =>
      dsimp only
      refine ⟨?_, ?_, ?_⟩
      · intro s2 hcon
        simp at hcon
      · intro s2 hcon
        simp at hcon
      · constructor
        · rintro ⟨s2, hcon⟩
          simp at hcon
        · rintro ⟨_, hfalse⟩
          exact absurd hfalse (by simp)
    | some re =>
      dsimp only
      cases hscan : InfixStore.del_scan s r (InfixStore.run_start_of s q)
          (re + 1 - InfixStore.run_start_of s q) with
      | none =>
        dsimp only
        refine ⟨?_, ?_, ?_⟩
        · intro s2 h
          have := Option.some.inj h
          simp at this
          exact this.symm
        · intro s2 hcon
          simp at hcon
        · constructor
          · rintro ⟨s2, hcon⟩
            simp at hcon
          · rintro ⟨_, p, hp1, hp2, hp3⟩
            have hnone : ¬ ∃ pos, InfixStore.del_scan s r
                (InfixStore.run_start_of s q)
                (re + 1 - InfixStore.run_start_of s q) = some pos := by
              rw [hscan]
              rintro ⟨pos, hcon⟩
              simp at hcon
            rw [del_scan_some_iff] at hnone
            exact absurd ⟨p, hp2, by omega, hp3⟩ hnone
      | some pos =>
        dsimp only
        have hsh : ∀ (t : InfixStore) (pp : Nat),
            (InfixStore.shift_runends_left
              (InfixStore.shift_slots_left t pp) pp).elem_count = t.elem_count :=
          fun t pp => ((shift_runends_left_dataOnly _ _).1).trans
            (shift_slots_left_dataOnly _ _).1
        refine ⟨?_, ?_, ?_⟩
        · intro s2 hcon
          simp at hcon
        · intro s2 h
          have h2 := Option.some.inj h
          have h3 : (Prod.mk true (α := Bool) _).2 = s2 := congrArg Prod.snd h2
          rw [← h3]
          repeat' split
          all_goals (try rw [resize_down_snd_elem])
          all_goals (try dsimp only)
          all_goals rw [hsh]
          all_goals (try dsimp only)
          all_goals omega
        · constructor
          · intro _
            refine ⟨hocc, ?_⟩
            have hex : ∃ posx, InfixStore.del_scan s r
                (InfixStore.run_start_of s q)
                (re + 1 - InfixStore.run_start_of s q) = some posx := ⟨pos, hscan⟩
            rw [del_scan_some_iff] at hex
            obtain ⟨p, hp1, hp2, hp3⟩ := hex
            exact ⟨p, by omega, hp1, hp3⟩
          · intro _
            exact ⟨_, rfl⟩
  · rw [if_pos (show (!InfixStore.is_occupied s q) = true by simp [hocc])]
    refine ⟨?_, ?_, ?_⟩
    · intro s2 h
      have := Option.some.inj h
      simp at this
      exact this.symm
    · intro s2 hcon
      simp at hcon
    · constructor
      · rintro ⟨s2, hcon⟩
        simp at hcon
      · rintro ⟨hc, _⟩
        exact absurd hc hocc

/-- Witness for C3: deleting the present infix 25610 from the two-element
store succeeds, and the failed delete of an absent infix returns false
with the store unchanged. -/
theorem delete_result_spec_witness :
    (∃ s2, bugStore0.delete 25610 = some (true, s2)) ∧
    (∀ s2, bugStore0.delete 25619 = some (false, s2) → s2 = bugStore0) := by
  have h := delete_result_spec bugStore0 25610 (by decide)
  have h2 := delete_result_spec bugStore0 25619 (by decide)
  refine ⟨?_, h2.1⟩
  apply h.2.2.mpr
  refine ⟨by decide, ?_⟩
  exact ⟨0, by decide, by decide, by decide⟩

theorem ins_scan_none (s : InfixStore) (r : Nat) :
    ∀ n i dflt,
      (∀ b, b < i + n → ∀ a, a < b → i ≤ a →
        s.read_slot a < s.read_slot b) →
      (∃ p, p < i + n ∧ i ≤ p ∧ s.read_slot p = r) →
      InfixStore.ins_scan s r i n dflt = none := by
  intro n
  induction n with
  | zero =>
    intro i dflt _ hmem
    obtain ⟨p, h1, h2, _⟩ := hmem
    omega
  | succ m ih =>
    intro i dflt hsort hmem
    rw [InfixStore.ins_scan]
    by_cases hv : InfixStore.read_slot s i = r
    · rw [if_pos hv]
    · rw [if_neg hv]
      by_cases hlt : r < InfixStore.read_slot s i
      · exfalso
        obtain ⟨p, hp1, hp2, hp3⟩ := hmem
        rcases Nat.eq_or_lt_of_le hp2 with he | hgt
        · rw [← he] at hp3
          exact hv hp3
        · have hs := hsort p hp1 i hgt le_rfl
          rw [hp3] at hs
          omega
      · rw [if_neg hlt]
        apply ih (i + 1) dflt
        · intro b hb a ha hia
          exact hsort b (by omega) a ha (by omega)
        · obtain ⟨p, hp1, hp2, hp3⟩ := hmem
          refine ⟨p, by omega, ?_, hp3⟩
          rcases Nat.eq_or_lt_of_le hp2 with he | hgt
          · rw [← he] at hp3
            exact absurd hp3 hv
          · omega

/-- C9: inserting a duplicate into a store with space left, whose
located run is strictly sorted and already contains the remainder,
returns true and leaves the store entirely unchanged. -/
theorem duplicate_insert_noop (s : InfixStore) (ifx : Nat)
    (hec : s.elem_count < s.num_slots)
    (hocc : s.is_occupied (split_qr ifx s.quotient_size s.remainder_size).1 = true)
    (hsorted : ∀ b, b < InfixStore.ins_run_end s
        (split_qr ifx s.quotient_size s.remainder_size).1 + 1 → ∀ a, a < b →
        InfixStore.run_start_of s
          (split_qr ifx s.quotient_size s.remainder_size).1 ≤ a →
        s.read_slot a < s.read_slot b)
    (hmem : ∃ p, p < InfixStore.ins_run_end s
        (split_qr ifx s.quotient_size s.remainder_size).1 + 1 ∧
        InfixStore.run_start_of s
          (split_qr ifx s.quotient_size s.remainder_size).1 ≤ p ∧
        s.read_slot p = (split_qr ifx s.quotient_size s.remainder_size).2) :
    s.insert ifx = (true, s) := by
  set q := (split_qr ifx s.quotient_size s.remainder_size).1 with hq
  set r := (split_qr ifx s.quotient_size s.remainder_size).2 with hr
  have hrs : InfixStore.run_start_of s q ≤ InfixStore.ins_run_end s q + 1 := by
    obtain ⟨p, h1, h2, _⟩ := hmem
    omega
  have hpos : InfixStore.ins_pos s q r = none := by
    unfold InfixStore.ins_pos
    rw [if_neg (show ¬ ((!InfixStore.is_occupied s q) = true) by simp [hocc])]
    apply ins_scan_none
    · intro b hb a ha hia
      exact hsorted b (by omega) a ha hia
    · obtain ⟨p, h1, h2, h3⟩ := hmem
      exact ⟨p, by omega, h2, h3⟩
  have hcore : InfixStore.insert_core s ifx = s := by
    simp only [InfixStore.insert_core]
    rw [← hq, ← hr, hpos]
  have hfull : ¬ scaled s.size_grade ≤ s.elem_count := by
    have : s.num_slots = scaled s.size_grade := rfl
    omega
  unfold InfixStore.insert
  rw [if_neg hfull, hcore]

/-- Witness for C9: re-inserting the present infix 25630 into the
two-element store is accepted and is a pure no-op. -/
theorem duplicate_insert_noop_witness :
    bugStore0.insert 25630 = (true, bugStore0) := by
  apply duplicate_insert_noop bugStore0 25630 (by decide) (by decide)
    (by decide)
  exact ⟨1, by decide, by decide, by decide⟩

/-! Resize round trip (claim C5). -/

theorem copyRange_length (dst src : List Nat) (ds ss : Nat) :
    ∀ n, (InfixStore.copyRange dst src ds ss n).length = dst.length := by
  intro n
  induction n with
  | zero => rfl
  | succ m ih =>
    rw [InfixStore.copyRange, List.length_set, ih]

theorem wget_copyRange (dst src : List Nat) (ds ss : Nat) :
    ∀ n j, wget (InfixStore.copyRange dst src ds ss n) j =
      if ds ≤ j ∧ j < ds + n ∧ j < dst.length then wget src (ss + (j - ds))
      else wget dst j := by
  intro n
  induction n with
  | zero =>
    intro j
    rw [InfixStore.copyRange, if_neg (by omega)]
  | succ m ih =>
    intro j
    rw [InfixStore.copyRange, wget_set, copyRange_length]
    by_cases hj : ds + m = j ∧ ds + m < dst.length
    · rw [if_pos hj, if_pos (by omega)]
      congr 1
      omega
    · rw [if_neg hj, ih j]
      by_cases h2 : ds ≤ j ∧ j < ds + m ∧ j < dst.length
      · rw [if_pos h2, if_pos (by omega)]
      · rw [if_neg h2]
        by_cases h3 : ds ≤ j ∧ j < ds + (m + 1) ∧ j < dst.length
        · exact absurd ⟨by omega, by omega⟩ hj
        · rw [if_neg h3]

theorem wget_wslice (d : List Nat) (a n i : Nat) :
    wget (wslice d a n) i = if i < n then wget d (a + i) else 0 := by
  unfold wslice wget
  rw [List.getD_eq_getElem?_getD, List.getD_eq_getElem?_getD]
  rw [List.getElem?_take, List.getElem?_drop]
  by_cases h : i < n
  · rw [if_pos h, if_pos h]
  · rw [if_neg h, if_neg h]
    rfl

theorem scaled_mono_step : ∀ g, g < 30 → scaled g ≤ scaled (g + 1) := by decide

theorem read_slot_raw_congr (s1 s2 : List Nat) (i R : Nat)
    (h1 : wget s1 (i * R / 64) = wget s2 (i * R / 64))
    (h2 : 64 < i * R % 64 + R →
      wget s1 (i * R / 64 + 1) = wget s2 (i * R / 64 + 1)) :
    read_slot_raw s1 i R = read_slot_raw s2 i R := by
  simp only [read_slot_raw]
  by_cases hstr : 64 < i * R % 64 + R
  · rw [if_pos hstr, if_pos hstr, h1, h2 hstr]
  · rw [if_neg hstr, if_neg hstr, h1]

theorem resize_to_data (s : InfixStore) (g2 : Nat) :
    (InfixStore.resize_to s g2).data =
      InfixStore.copyRange (InfixStore.copyRange (InfixStore.copyRange
        (List.replicate (1 + occWords + runWords (scaled g2) +
          slotWords (scaled g2) s.remainder_size) 0)
        s.data 0 0 (1 + occWords))
        s.data (1 + occWords) (1 + occWords)
        ((s.elem_count + U64_BITS - 1) / U64_BITS))
        s.data (1 + occWords + runWords (scaled g2))
        (1 + occWords + runWords (scaled s.size_grade))
        ((s.elem_count * s.remainder_size + U64_BITS - 1) / U64_BITS) := rfl

theorem wget_copyRange_lo (dst src : List Nat) (ds ss n j : Nat) (h : j < ds) :
    wget (InfixStore.copyRange dst src ds ss n) j = wget dst j := by
  rw [wget_copyRange, if_neg (by omega)]

theorem wget_copyRange_in (dst src : List Nat) (ds ss n j : Nat)
    (h1 : ds ≤ j) (h2 : j < ds + n) (h3 : j < dst.length) :
    wget (InfixStore.copyRange dst src ds ss n) j = wget src (ss + (j - ds)) := by
  rw [wget_copyRange, if_pos ⟨h1, h2, h3⟩]

theorem read_slot_raw_zeroR (s : List Nat) (i : Nat) :
    read_slot_raw s i 0 = 0 := by
  simp [read_slot_raw]

theorem resize_observables (s s2 : InfixStore)
    (hgr : s2.size_grade = s.size_grade)
    (hrs : s2.remainder_size = s.remainder_size)
    (hec : s.elem_count ≤ scaled s.size_grade)
    (ha : ∀ j, j < 1 + occWords → wget s2.data j = wget s.data j)
    (hb : ∀ j, 1 + occWords ≤ j →
        j < 1 + occWords + (s.elem_count + 63) / 64 →
        wget s2.data j = wget s.data j)
    (hc : ∀ j, 1 + occWords + runWords (scaled s.size_grade) ≤ j →
        j < 1 + occWords + runWords (scaled s.size_grade) +
          (s.elem_count * s.remainder_size + 63) / 64 →
        wget s2.data j = wget s.data j) :
    (∀ q, s2.is_occupied q = s.is_occupied q) ∧
    (∀ i, i < s.elem_count → s2.is_runend i = s.is_runend i ∧
        s2.read_slot i = s.read_slot i) := by
  constructor
  · intro q
    unfold InfixStore.is_occupied InfixStore.occSlice Bitmap.get_bit
    rw [wget_wslice, wget_wslice]
    by_cases hq : q / 64 < occWords
    · rw [if_pos hq, if_pos hq]
      congr 1
      exact ha (1 + q / 64) (by omega)
    · rw [if_neg hq, if_neg hq]
  · intro i hi
    have hrwg : runWords (scaled s.size_grade) = (scaled s.size_grade + 63) / 64 := rfl
    constructor
    · unfold InfixStore.is_runend InfixStore.runSlice Bitmap.get_bit
      rw [hgr, wget_wslice, wget_wslice]
      have hq : i / 64 < runWords (scaled s.size_grade) := by omega
      rw [if_pos hq, if_pos hq]
      congr 1
      exact hb (1 + occWords + i / 64) (by omega) (by omega)
    · unfold InfixStore.read_slot InfixStore.slotsSlice InfixStore.slotsStart
      rw [hgr, hrs]
      rcases Nat.eq_zero_or_pos s.remainder_size with hR0 | hRpos
      · rw [hR0, read_slot_raw_zeroR, read_slot_raw_zeroR]
      · have hswg : slotWords (scaled s.size_grade) s.remainder_size
            = (scaled s.size_grade * s.remainder_size + 63) / 64 := rfl
        have hiR : i * s.remainder_size + s.remainder_size
            ≤ s.elem_count * s.remainder_size := by
          have h1 : (i + 1) * s.remainder_size ≤ s.elem_count * s.remainder_size :=
            Nat.mul_le_mul_right _ hi
          rw [Nat.succ_mul] at h1
          exact h1
        have hnsR : s.elem_count * s.remainder_size
            ≤ scaled s.size_grade * s.remainder_size :=
          Nat.mul_le_mul_right _ hec
        apply read_slot_raw_congr
        · rw [wget_wslice, wget_wslice]
          have hw : i * s.remainder_size / 64
              < slotWords (scaled s.size_grade) s.remainder_size := by omega
          rw [if_pos hw, if_pos hw]
          exact hc _ (by omega) (by omega)
        · intro hstr
          rw [wget_wslice, wget_wslice]
          have hw : i * s.remainder_size / 64 + 1
              < slotWords (scaled s.size_grade) s.remainder_size := by omega
          rw [if_pos hw, if_pos hw]
          exact hc _ (by omega) (by omega)

/-- C5: for a store with size_grade below the maximum and elem_count within
num_slots, resize_up immediately followed by resize_down succeeds both times
and restores every externally observable component: size_grade, elem_count,
remainder_size, num_slots, is_occupied at every quotient, and is_runend and
read_slot at every index below elem_count. -/
theorem resize_round_trip (s : InfixStore)
    (hg : s.size_grade < 30)
    (hec : s.elem_count ≤ s.num_slots) :
    (InfixStore.resize_up s).1 = true ∧
    (InfixStore.resize_down (InfixStore.resize_up s).2).1 = true ∧
    ((InfixStore.resize_down (InfixStore.resize_up s).2).2.size_grade
        = s.size_grade ∧
      (InfixStore.resize_down (InfixStore.resize_up s).2).2.elem_count
        = s.elem_count ∧
      (InfixStore.resize_down (InfixStore.resize_up s).2).2.remainder_size
        = s.remainder_size ∧
      (InfixStore.resize_down (InfixStore.resize_up s).2).2.num_slots
        = s.num_slots) ∧
    (∀ q, (InfixStore.resize_down (InfixStore.resize_up s).2).2.is_occupied q
        = s.is_occupied q) ∧
    (∀ i, i < s.elem_count →
      (InfixStore.resize_down (InfixStore.resize_up s).2).2.is_runend i
          = s.is_runend i ∧
      (InfixStore.resize_down (InfixStore.resize_up s).2).2.read_slot i
          = s.read_slot i) := by
  have h31 : SIZE_GRADE_COUNT = 31 := rfl
  have hup : InfixStore.resize_up s
      = (true, InfixStore.resize_to s (s.size_grade + 1)) := by
    unfold InfixStore.resize_up
    rw [if_neg (by omega)]
  have hdown : InfixStore.resize_down (InfixStore.resize_to s (s.size_grade + 1))
      = (true, InfixStore.resize_to (InfixStore.resize_to s (s.size_grade + 1))
          s.size_grade) := by
    unfold InfixStore.resize_down
    rw [resize_to_size_grade, if_neg (by omega), Nat.add_sub_cancel]
  have hsnd1 : (InfixStore.resize_up s).2
      = InfixStore.resize_to s (s.size_grade + 1) := by rw [hup]
  have hfull : (InfixStore.resize_down (InfixStore.resize_up s).2).2
      = InfixStore.resize_to (InfixStore.resize_to s (s.size_grade + 1))
          s.size_grade := by rw [hsnd1, hdown]
  have hns : s.num_slots = scaled s.size_grade := rfl
  rw [hns] at hec
  have hmono : scaled s.size_grade ≤ scaled (s.size_grade + 1) :=
    scaled_mono_step _ hg
  have hrwg : runWords (scaled s.size_grade) = (scaled s.size_grade + 63) / 64 := rfl
  have hrwg1 : runWords (scaled (s.size_grade + 1))
      = (scaled (s.size_grade + 1) + 63) / 64 := rfl
  have hswg : slotWords (scaled s.size_grade) s.remainder_size
      = (scaled s.size_grade * s.remainder_size + 63) / 64 := rfl
  have hswg1 : slotWords (scaled (s.size_grade + 1)) s.remainder_size
      = (scaled (s.size_grade + 1) * s.remainder_size + 63) / 64 := rfl
  have hecR : s.elem_count * s.remainder_size
      ≤ scaled s.size_grade * s.remainder_size :=
    Nat.mul_le_mul_right _ hec
  have hecR1 : s.elem_count * s.remainder_size
      ≤ scaled (s.size_grade + 1) * s.remainder_size :=
    Nat.mul_le_mul_right _ (le_trans hec hmono)
  have hd1 : (InfixStore.resize_to s (s.size_grade + 1)).data =
      InfixStore.copyRange (InfixStore.copyRange (InfixStore.copyRange
        (List.replicate (1 + occWords + runWords (scaled (s.size_grade + 1)) +
          slotWords (scaled (s.size_grade + 1)) s.remainder_size) 0)
        s.data 0 0 (1 + occWords))
        s.data (1 + occWords) (1 + occWords) ((s.elem_count + 63) / 64))
        s.data (1 + occWords + runWords (scaled (s.size_grade + 1)))
        (1 + occWords + runWords (scaled s.size_grade))
        ((s.elem_count * s.remainder_size + 63) / 64) := rfl
  have hd2 : (InfixStore.resize_to (InfixStore.resize_to s (s.size_grade + 1))
        s.size_grade).data =
      InfixStore.copyRange (InfixStore.copyRange (InfixStore.copyRange
        (List.replicate (1 + occWords + runWords (scaled s.size_grade) +
          slotWords (scaled s.size_grade) s.remainder_size) 0)
        (InfixStore.resize_to s (s.size_grade + 1)).data 0 0 (1 + occWords))
        (InfixStore.resize_to s (s.size_grade + 1)).data
        (1 + occWords) (1 + occWords) ((s.elem_count + 63) / 64))
        (InfixStore.resize_to s (s.size_grade + 1)).data
        (1 + occWords + runWords (scaled s.size_grade))
        (1 + occWords + runWords (scaled (s.size_grade + 1)))
        ((s.elem_count * s.remainder_size + 63) / 64) := rfl
  have ha : ∀ j, j < 1 + occWords →
      wget (InfixStore.resize_to (InfixStore.resize_to s (s.size_grade + 1))
        s.size_grade).data j = wget s.data j := by
    intro j hj
    rw [hd2, wget_copyRange_lo _ _ _ _ _ _ (by omega),
        wget_copyRange_lo _ _ _ _ _ _ (by omega),
        wget_copyRange_in _ _ _ _ _ _ (by omega) (by omega)
          (by rw [List.length_replicate]; omega)]
    have hx : 0 + (j - 0) = j := by omega
    rw [hx, hd1, wget_copyRange_lo _ _ _ _ _ _ (by omega),
        wget_copyRange_lo _ _ _ _ _ _ (by omega),
        wget_copyRange_in _ _ _ _ _ _ (by omega) (by omega)
          (by rw [List.length_replicate]; omega), hx]
  have hb : ∀ j, 1 + occWords ≤ j →
      j < 1 + occWords + (s.elem_count + 63) / 64 →
      wget (InfixStore.resize_to (InfixStore.resize_to s (s.size_grade + 1))
        s.size_grade).data j = wget s.data j := by
    intro j hj1 hj2
    rw [hd2, wget_copyRange_lo _ _ _ _ _ _ (by omega),
        wget_copyRange_in _ _ _ _ _ _ (by omega) (by omega)
          (by rw [copyRange_length, List.length_replicate]; omega)]
    have hx : 1 + occWords + (j - (1 + occWords)) = j := by omega
    rw [hx, hd1, wget_copyRange_lo _ _ _ _ _ _ (by omega),
        wget_copyRange_in _ _ _ _ _ _ (by omega) (by omega)
          (by rw [copyRange_length, List.length_replicate]; omega), hx]
  have hc : ∀ j, 1 + occWords + runWords (scaled s.size_grade) ≤ j →
      j < 1 + occWords + runWords (scaled s.size_grade) +
        (s.elem_count * s.remainder_size + 63) / 64 →
      wget (InfixStore.resize_to (InfixStore.resize_to s (s.size_grade + 1))
        s.size_grade).data j = wget s.data j := by
    intro j hj1 hj2
    rw [hd2, wget_copyRange_in _ _ _ _ _ _ (by omega) (by omega)
          (by rw [copyRange_length, copyRange_length, List.length_replicate]; omega)]
    rw [hd1, wget_copyRange_in _ _ _ _ _ _ (by omega) (by omega)
          (by rw [copyRange_length, copyRange_length, List.length_replicate]; omega)]
    congr 1
    omega
  obtain ⟨hoccq, hslots⟩ := resize_observables s
    (InfixStore.resize_to (InfixStore.resize_to s (s.size_grade + 1)) s.size_grade)
    (resize_to_size_grade _ _) (resize_to_remainder_size _ _) hec ha hb hc
  refine ⟨by rw [hup], by rw [hsnd1, hdown], ⟨?_, ?_, ?_, ?_⟩, ?_, ?_⟩
  · rw [hfull]
    exact resize_to_size_grade _ _
  · rw [hfull]
    exact resize_to_elem_count _ _
  · rw [hfull]
    exact resize_to_remainder_size _ _
  · rw [hfull]
    rfl
  · intro q
    rw [hfull]
    exact hoccq q
  · intro i hi
    rw [hfull]
    exact hslots i hi

theorem resize_round_trip_witness :
    bugStore0.size_grade < 30 ∧ bugStore0.elem_count ≤ bugStore0.num_slots ∧
    ((InfixStore.resize_up bugStore0).1 = true ∧
    (InfixStore.resize_down (InfixStore.resize_up bugStore0).2).1 = true ∧
    ((InfixStore.resize_down (InfixStore.resize_up bugStore0).2).2.size_grade
        = bugStore0.size_grade ∧
      (InfixStore.resize_down (InfixStore.resize_up bugStore0).2).2.elem_count
        = bugStore0.elem_count ∧
      (InfixStore.resize_down (InfixStore.resize_up bugStore0).2).2.remainder_size
        = bugStore0.remainder_size ∧
      (InfixStore.resize_down (InfixStore.resize_up bugStore0).2).2.num_slots
        = bugStore0.num_slots) ∧
    (∀ q, (InfixStore.resize_down (InfixStore.resize_up bugStore0).2).2.is_occupied q
        = bugStore0.is_occupied q) ∧
    (∀ i, i < bugStore0.elem_count →
      (InfixStore.resize_down (InfixStore.resize_up bugStore0).2).2.is_runend i
          = bugStore0.is_runend i ∧
      (InfixStore.resize_down (InfixStore.resize_up bugStore0).2).2.read_slot i
          = bugStore0.read_slot i)) :=
  ⟨by decide, by decide, resize_round_trip bugStore0 (by decide) (by decide)⟩

/-! Popcounts-cache independence (claim C10): stores that agree outside
data word 0 stay related through every operation. -/

/-- DropRel d1 d2: the word arrays have equal length and agree from word 1
on (they may differ only in word 0, the popcounts cache). -/
def DropRel (d1 d2 : List Nat) : Prop :=
  d1.length = d2.length ∧ d1.drop 1 = d2.drop 1

/-- EqUpto0 s t: the stores agree in every field and in every data word
except possibly data word 0. -/
def EqUpto0 (s t : InfixStore) : Prop :=
  s.elem_count = t.elem_count ∧ s.size_grade = t.size_grade ∧
  s.remainder_size = t.remainder_size ∧ s.quotient_size = t.quotient_size ∧
  DropRel s.data t.data

theorem dropRel_wget (d1 d2 : List Nat) (j : Nat)
    (h : DropRel d1 d2) (hj : 1 ≤ j) : wget d1 j = wget d2 j := by
  unfold wget
  rw [List.getD_eq_getElem?_getD, List.getD_eq_getElem?_getD]
  have h1 : (d1.drop 1)[j - 1]? = (d2.drop 1)[j - 1]? := by rw [h.2]
  rw [List.getElem?_drop, List.getElem?_drop] at h1
  have e : 1 + (j - 1) = j := by omega
  rw [e] at h1
  rw [h1]

theorem dropRel_wslice (d1 d2 : List Nat) (a n : Nat)
    (h : DropRel d1 d2) (ha : 1 ≤ a) : wslice d1 a n = wslice d2 a n := by
  unfold wslice
  have e : a = 1 + (a - 1) := by omega
  rw [e, ← List.drop_drop, ← List.drop_drop, h.2]

theorem drop_one_set_ge (d : List Nat) (j v : Nat) (hj : 1 ≤ j) :
    (d.set j v).drop 1 = (d.drop 1).set (j - 1) v := by
  cases d with
  | nil => rfl
  | cons a t =>
    obtain ⟨k, rfl⟩ : ∃ k, j = k + 1 := ⟨j - 1, by omega⟩
    rfl

theorem drop_one_set_zero (d : List Nat) (v : Nat) :
    (d.set 0 v).drop 1 = d.drop 1 := by
  cases d <;> rfl

theorem dropRel_set (d1 d2 : List Nat) (j v : Nat)
    (h : DropRel d1 d2) (hj : 1 ≤ j) : DropRel (d1.set j v) (d2.set j v) := by
  refine ⟨by simp [h.1], ?_⟩
  rw [drop_one_set_ge _ _ _ hj, drop_one_set_ge _ _ _ hj, h.2]

theorem dropRel_set_f (d1 d2 : List Nat) (j : Nat) (f : Nat → Nat)
    (h : DropRel d1 d2) (hj : 1 ≤ j) :
    DropRel (d1.set j (f (wget d1 j))) (d2.set j (f (wget d2 j))) := by
  rw [dropRel_wget d1 d2 j h hj]
  exact dropRel_set d1 d2 j _ h hj

theorem dropRel_set_bit_at (d1 d2 : List Nat) (base pos : Nat)
    (h : DropRel d1 d2) (hb : 1 ≤ base) :
    DropRel (set_bit_at d1 base pos) (set_bit_at d2 base pos) := by
  unfold set_bit_at
  exact dropRel_set_f d1 d2 (base + pos / 64)
    (fun w => w ||| (1 <<< (pos % 64))) h (by omega)

theorem dropRel_clear_bit_at (d1 d2 : List Nat) (base pos : Nat)
    (h : DropRel d1 d2) (hb : 1 ≤ base) :
    DropRel (clear_bit_at d1 base pos) (clear_bit_at d2 base pos) := by
  unfold clear_bit_at
  exact dropRel_set_f d1 d2 (base + pos / 64)
    (fun w => w &&& (MASK64 ^^^ (1 <<< (pos % 64)))) h (by omega)

theorem dropRel_write_slot_at (d1 d2 : List Nat) (base idx rem R : Nat)
    (h : DropRel d1 d2) (hb : 1 ≤ base) :
    DropRel (write_slot_at d1 base idx rem R) (write_slot_at d2 base idx rem R) := by
  have hwi : 1 ≤ base + idx * R / 64 := by omega
  have hwi1 : 1 ≤ base + idx * R / 64 + 1 := by omega
  have s1 := dropRel_set_f d1 d2 (base + idx * R / 64)
    (fun w => w &&& (MASK64 ^^^ ((((1 <<< R) - 1) <<< (idx * R % 64)) % 2 ^ 64)))
    h hwi
  have s2 := dropRel_set_f _ _ (base + idx * R / 64)
    (fun w => w ||| (((rem &&& ((1 <<< R) - 1)) <<< (idx * R % 64)) % 2 ^ 64))
    s1 hwi
  simp only [write_slot_at]
  by_cases hov : 64 < idx * R % 64 + R
  · rw [if_pos hov, if_pos hov]
    have s3 := dropRel_set_f _ _ (base + idx * R / 64 + 1)
      (fun w => w &&& (MASK64 ^^^ ((1 <<< (idx * R % 64 + R - 64)) - 1)))
      s2 hwi1
    exact dropRel_set_f _ _ (base + idx * R / 64 + 1)
      (fun w => w ||| (rem >>> (R - (idx * R % 64 + R - 64))))
      s3 hwi1
  · rw [if_neg hov, if_neg hov]
    exact s2

theorem eqUpto0_occSlice (s t : InfixStore) (h : EqUpto0 s t) :
    InfixStore.occSlice s = InfixStore.occSlice t := by
  unfold InfixStore.occSlice
  exact dropRel_wslice _ _ _ _ h.2.2.2.2 (by omega)

theorem eqUpto0_runSlice (s t : InfixStore) (h : EqUpto0 s t) :
    InfixStore.runSlice s = InfixStore.runSlice t := by
  unfold InfixStore.runSlice
  rw [h.2.1]
  exact dropRel_wslice _ _ _ _ h.2.2.2.2 (by omega)

theorem eqUpto0_slotsStart (s t : InfixStore) (h : EqUpto0 s t) :
    InfixStore.slotsStart s = InfixStore.slotsStart t := by
  unfold InfixStore.slotsStart
  rw [h.2.1]

theorem slotsStart_pos (s : InfixStore) : 1 ≤ InfixStore.slotsStart s := by
  unfold InfixStore.slotsStart
  omega

theorem eqUpto0_slotsSlice (s t : InfixStore) (h : EqUpto0 s t) :
    InfixStore.slotsSlice s = InfixStore.slotsSlice t := by
  unfold InfixStore.slotsSlice
  rw [h.2.1, h.2.2.1, eqUpto0_slotsStart s t h]
  exact dropRel_wslice _ _ _ _ h.2.2.2.2 (slotsStart_pos t)

theorem eqUpto0_is_occupied (s t : InfixStore) (h : EqUpto0 s t) (q : Nat) :
    InfixStore.is_occupied s q = InfixStore.is_occupied t q := by
  unfold InfixStore.is_occupied
  rw [eqUpto0_occSlice s t h]

theorem eqUpto0_is_runend (s t : InfixStore) (h : EqUpto0 s t) (i : Nat) :
    InfixStore.is_runend s i = InfixStore.is_runend t i := by
  unfold InfixStore.is_runend
  rw [eqUpto0_runSlice s t h]

theorem eqUpto0_read_slot (s t : InfixStore) (h : EqUpto0 s t) (i : Nat) :
    InfixStore.read_slot s i = InfixStore.read_slot t i := by
  unfold InfixStore.read_slot
  rw [eqUpto0_slotsSlice s t h, h.2.2.1]

theorem eqUpto0_run_index_of (s t : InfixStore) (h : EqUpto0 s t) (q : Nat) :
    InfixStore.run_index_of s q = InfixStore.run_index_of t q := by
  unfold InfixStore.run_index_of
  rw [eqUpto0_occSlice s t h]

theorem eqUpto0_run_start_of (s t : InfixStore) (h : EqUpto0 s t) (q : Nat) :
    InfixStore.run_start_of s q = InfixStore.run_start_of t q := by
  unfold InfixStore.run_start_of
  rw [eqUpto0_runSlice s t h, eqUpto0_run_index_of s t h]

theorem eqUpto0_ins_run_end (s t : InfixStore) (h : EqUpto0 s t) (q : Nat) :
    InfixStore.ins_run_end s q = InfixStore.ins_run_end t q := by
  unfold InfixStore.ins_run_end
  rw [eqUpto0_runSlice s t h, eqUpto0_run_index_of s t h, h.1]

theorem eqUpto0_grb_walk (s t : InfixStore) (h : EqUpto0 s t) :
    ∀ i, InfixStore.grb_walk s i = InfixStore.grb_walk t i := by
  intro i
  induction i with
  | zero => rfl
  | succ i ih =>
    simp only [InfixStore.grb_walk]
    rw [eqUpto0_is_runend s t h i, ih]

theorem eqUpto0_get_run_bounds (s t : InfixStore) (h : EqUpto0 s t) (q : Nat) :
    InfixStore.get_run_bounds s q = InfixStore.get_run_bounds t q := by
  unfold InfixStore.get_run_bounds
  rw [eqUpto0_runSlice s t h, eqUpto0_run_index_of s t h]
  cases Bitmap.select (InfixStore.runSlice t) (InfixStore.run_index_of t q) with
  | none => rfl
  | some re =>
    dsimp only
    rw [eqUpto0_grb_walk s t h re]

theorem eqUpto0_frr_scan (s t : InfixStore) (h : EqUpto0 s t) (tg : Nat) :
    ∀ n i, InfixStore.frr_scan s tg i n = InfixStore.frr_scan t tg i n := by
  intro n
  induction n with
  | zero => intro i; rfl
  | succ n ih =>
    intro i
    simp only [InfixStore.frr_scan]
    rw [eqUpto0_read_slot s t h i, ih]

theorem eqUpto0_find_remainder_in_run (s t : InfixStore) (h : EqUpto0 s t)
    (q tg : Nat) :
    InfixStore.find_remainder_in_run s q tg
      = InfixStore.find_remainder_in_run t q tg := by
  unfold InfixStore.find_remainder_in_run
  rw [eqUpto0_get_run_bounds s t h q]
  cases InfixStore.get_run_bounds t q with
  | none => rfl
  | some b =>
    dsimp only
    rw [eqUpto0_frr_scan s t h tg]

theorem eqUpto0_ins_scan (s t : InfixStore) (h : EqUpto0 s t) (r : Nat) :
    ∀ n i dflt, InfixStore.ins_scan s r i n dflt = InfixStore.ins_scan t r i n dflt := by
  intro n
  induction n with
  | zero => intro i dflt; rfl
  | succ n ih =>
    intro i dflt
    simp only [InfixStore.ins_scan]
    rw [eqUpto0_read_slot s t h i, ih]

theorem eqUpto0_ins_pos (s t : InfixStore) (h : EqUpto0 s t) (q r : Nat) :
    InfixStore.ins_pos s q r = InfixStore.ins_pos t q r := by
  unfold InfixStore.ins_pos
  rw [eqUpto0_is_occupied s t h q, eqUpto0_run_start_of s t h q,
      eqUpto0_ins_run_end s t h q, eqUpto0_ins_scan s t h r]

theorem eqUpto0_del_scan (s t : InfixStore) (h : EqUpto0 s t) (r : Nat) :
    ∀ n i, InfixStore.del_scan s r i n = InfixStore.del_scan t r i n := by
  intro n
  induction n with
  | zero => intro i; rfl
  | succ n ih =>
    intro i
    simp only [InfixStore.del_scan]
    rw [eqUpto0_read_slot s t h i, ih]

theorem eqUpto0_mk (s t : InfixStore) (D1 D2 : List Nat)
    (h : EqUpto0 s t) (hd : DropRel D1 D2) :
    EqUpto0 { s with data := D1 } { t with data := D2 } :=
  ⟨h.1, h.2.1, h.2.2.1, h.2.2.2.1, hd⟩

theorem eqUpto0_bump (s t : InfixStore) (h : EqUpto0 s t) :
    EqUpto0 { s with elem_count := s.elem_count + 1 }
      { t with elem_count := t.elem_count + 1 } :=
  ⟨by rw [h.1], h.2.1, h.2.2.1, h.2.2.2.1, h.2.2.2.2⟩

theorem eqUpto0_decr (s t : InfixStore) (h : EqUpto0 s t) :
    EqUpto0 { s with elem_count := s.elem_count - 1 }
      { t with elem_count := t.elem_count - 1 } :=
  ⟨by rw [h.1], h.2.1, h.2.2.1, h.2.2.2.1, h.2.2.2.2⟩

theorem eqUpto0_ssr_go (p : Nat) :
    ∀ n s t, EqUpto0 s t →
      EqUpto0 (InfixStore.shift_slots_right_go s p n)
        (InfixStore.shift_slots_right_go t p n) := by
  intro n
  induction n with
  | zero => intro s t h; exact h
  | succ n ih =>
    intro s t h
    simp only [InfixStore.shift_slots_right_go]
    apply ih
    apply eqUpto0_mk s t _ _ h
    rw [eqUpto0_read_slot s t h, eqUpto0_slotsStart s t h, h.2.2.1]
    exact dropRel_write_slot_at _ _ _ _ _ _ h.2.2.2.2 (slotsStart_pos t)

theorem eqUpto0_shift_slots_right (s t : InfixStore) (p : Nat) (h : EqUpto0 s t) :
    EqUpto0 (InfixStore.shift_slots_right s p) (InfixStore.shift_slots_right t p) := by
  unfold InfixStore.shift_slots_right
  rw [h.1]
  exact eqUpto0_ssr_go p _ s t h

theorem eqUpto0_srr_go (p : Nat) :
    ∀ n s t, EqUpto0 s t →
      EqUpto0 (InfixStore.shift_runends_right_go s p n)
        (InfixStore.shift_runends_right_go t p n) := by
  intro n
  induction n with
  | zero => intro s t h; exact h
  | succ n ih =>
    intro s t h
    simp only [InfixStore.shift_runends_right_go]
    apply ih
    rw [eqUpto0_is_runend s t h]
    by_cases hc : InfixStore.is_runend t (p + n) = true
    · rw [if_pos hc, if_pos hc]
      exact eqUpto0_mk s t _ _ h
        (dropRel_set_bit_at _ _ _ _ h.2.2.2.2 (by omega))
    · rw [if_neg hc, if_neg hc]
      exact eqUpto0_mk s t _ _ h
        (dropRel_clear_bit_at _ _ _ _ h.2.2.2.2 (by omega))

theorem eqUpto0_shift_runends_right (s t : InfixStore) (p : Nat) (h : EqUpto0 s t) :
    EqUpto0 (InfixStore.shift_runends_right s p)
      (InfixStore.shift_runends_right t p) := by
  unfold InfixStore.shift_runends_right
  rw [h.1]
  have hgo := eqUpto0_srr_go p (t.elem_count - p) s t h
  exact eqUpto0_mk _ _ _ _ hgo
    (dropRel_clear_bit_at _ _ _ _ hgo.2.2.2.2 (by omega))

theorem eqUpto0_ssl_go :
    ∀ n i s t, EqUpto0 s t →
      EqUpto0 (InfixStore.shift_slots_left_go s i n)
        (InfixStore.shift_slots_left_go t i n) := by
  intro n
  induction n with
  | zero => intro i s t h; exact h
  | succ n ih =>
    intro i s t h
    simp only [InfixStore.shift_slots_left_go]
    apply ih
    apply eqUpto0_mk s t _ _ h
    rw [eqUpto0_read_slot s t h, eqUpto0_slotsStart s t h, h.2.2.1]
    exact dropRel_write_slot_at _ _ _ _ _ _ h.2.2.2.2 (slotsStart_pos t)

theorem eqUpto0_shift_slots_left (s t : InfixStore) (p : Nat) (h : EqUpto0 s t) :
    EqUpto0 (InfixStore.shift_slots_left s p) (InfixStore.shift_slots_left t p) := by
  unfold InfixStore.shift_slots_left
  rw [h.1]
  exact eqUpto0_ssl_go _ p s t h

theorem eqUpto0_srl_go :
    ∀ n i s t, EqUpto0 s t →
      EqUpto0 (InfixStore.shift_runends_left_go s i n)
        (InfixStore.shift_runends_left_go t i n) := by
  intro n
  induction n with
  | zero => intro i s t h; exact h
  | succ n ih =>
    intro i s t h
    simp only [InfixStore.shift_runends_left_go]
    apply ih
    rw [eqUpto0_is_runend s t h]
    by_cases hc : InfixStore.is_runend t (i + 1) = true
    · rw [if_pos hc, if_pos hc]
      exact eqUpto0_mk s t _ _ h
        (dropRel_set_bit_at _ _ _ _ h.2.2.2.2 (by omega))
    · rw [if_neg hc, if_neg hc]
      exact eqUpto0_mk s t _ _ h
        (dropRel_clear_bit_at _ _ _ _ h.2.2.2.2 (by omega))

theorem eqUpto0_shift_runends_left (s t : InfixStore) (p : Nat) (h : EqUpto0 s t) :
    EqUpto0 (InfixStore.shift_runends_left s p)
      (InfixStore.shift_runends_left t p) := by
  unfold InfixStore.shift_runends_left
  rw [h.1]
  have hgo := eqUpto0_srl_go (t.elem_count - 1 - p) p s t h
  refine ⟨hgo.1, hgo.2.1, hgo.2.2.1, hgo.2.2.2.1, ?_⟩
  dsimp only
  rw [hgo.1]
  exact dropRel_clear_bit_at _ _ _ _ hgo.2.2.2.2 (Nat.le_add_right 1 occWords)

theorem drop_one_eq_of_wget (d1 d2 : List Nat) (hl : d1.length = d2.length)
    (hw : ∀ j, 1 ≤ j → wget d1 j = wget d2 j) : d1.drop 1 = d2.drop 1 := by
  apply List.ext_getElem?
  intro n
  rw [List.getElem?_drop, List.getElem?_drop]
  by_cases hn : 1 + n < d1.length
  · have h2 : 1 + n < d2.length := by omega
    rw [List.getElem?_eq_getElem hn, List.getElem?_eq_getElem h2]
    have hv := hw (1 + n) (by omega)
    unfold wget at hv
    rw [List.getD_eq_getElem?_getD, List.getD_eq_getElem?_getD,
        List.getElem?_eq_getElem hn, List.getElem?_eq_getElem h2] at hv
    simpa using hv
  · rw [List.getElem?_eq_none (by omega), List.getElem?_eq_none (by omega)]

theorem wget_replicate_zero (n j : Nat) : wget (List.replicate n 0) j = 0 := by
  unfold wget
  rw [List.getD_eq_getElem?_getD]
  by_cases h : j < n
  · rw [List.getElem?_replicate, if_pos h]
    rfl
  · rw [List.getElem?_replicate, if_neg h]
    rfl

theorem wget_resize_to_data (s : InfixStore) (g j : Nat) :
    wget (InfixStore.resize_to s g).data j =
      (if 1 + occWords + runWords (scaled g) ≤ j ∧
          j < 1 + occWords + runWords (scaled g) +
            (s.elem_count * s.remainder_size + U64_BITS - 1) / U64_BITS ∧
          j < 1 + occWords + runWords (scaled g) +
            slotWords (scaled g) s.remainder_size
        then wget s.data (1 + occWords + runWords (scaled s.size_grade) +
          (j - (1 + occWords + runWords (scaled g))))
        else if 1 + occWords ≤ j ∧
            j < 1 + occWords + (s.elem_count + U64_BITS - 1) / U64_BITS ∧
            j < 1 + occWords + runWords (scaled g) +
              slotWords (scaled g) s.remainder_size
        then wget s.data (1 + occWords + (j - (1 + occWords)))
        else if 0 ≤ j ∧ j < 0 + (1 + occWords) ∧
            j < 1 + occWords + runWords (scaled g) +
              slotWords (scaled g) s.remainder_size
        then wget s.data (0 + (j - 0))
        else 0) := by
  rw [resize_to_data, wget_copyRange, copyRange_length, copyRange_length,
      List.length_replicate, wget_copyRange, copyRange_length,
      List.length_replicate, wget_copyRange, List.length_replicate,
      wget_replicate_zero]

theorem eqUpto0_resize_to (s t : InfixStore) (g : Nat) (h : EqUpto0 s t) :
    EqUpto0 (InfixStore.resize_to s g) (InfixStore.resize_to t g) := by
  obtain ⟨he, hg2, hr, hq, hl, hdr⟩ := h
  have hlen : (InfixStore.resize_to s g).data.length
      = (InfixStore.resize_to t g).data.length := by
    rw [resize_to_data, resize_to_data, copyRange_length, copyRange_length,
        copyRange_length, copyRange_length, copyRange_length, copyRange_length,
        List.length_replicate, List.length_replicate, hr]
  refine ⟨he, rfl, hr, hq, hlen, ?_⟩
  apply drop_one_eq_of_wget _ _ hlen
  intro j hj
  rw [wget_resize_to_data, wget_resize_to_data, he, hr, hg2]
  refine if_congr Iff.rfl ?_ (if_congr Iff.rfl ?_ (if_congr Iff.rfl ?_ rfl))
  · exact dropRel_wget _ _ _ ⟨hl, hdr⟩ (by omega)
  · exact dropRel_wget _ _ _ ⟨hl, hdr⟩ (by omega)
  · exact dropRel_wget _ _ _ ⟨hl, hdr⟩ (by omega)

theorem eqUpto0_resize_down_snd (a b : InfixStore) (h : EqUpto0 a b) :
    EqUpto0 (InfixStore.resize_down a).2 (InfixStore.resize_down b).2 := by
  unfold InfixStore.resize_down
  rw [h.2.1]
  by_cases hz : b.size_grade = 0
  · rw [if_pos hz, if_pos hz]
    exact h
  · rw [if_neg hz, if_neg hz]
    exact eqUpto0_resize_to a b _ h

theorem eqUpto0_insert_core (s t : InfixStore) (x : Nat) (h : EqUpto0 s t) :
    EqUpto0 (InfixStore.insert_core s x) (InfixStore.insert_core t x) := by
  have hqr : split_qr x s.quotient_size s.remainder_size
      = split_qr x t.quotient_size t.remainder_size := by
    rw [h.2.2.1, h.2.2.2.1]
  simp only [InfixStore.insert_core]
  rw [hqr, eqUpto0_is_occupied s t h, eqUpto0_ins_run_end s t h,
      eqUpto0_ins_pos s t h, h.1]
  cases hpos : InfixStore.ins_pos t (split_qr x t.quotient_size t.remainder_size).1
      (split_qr x t.quotient_size t.remainder_size).2 with
  | none => exact h
  | some ip =>
    dsimp only
    have h1 : EqUpto0
        (if 0 < t.elem_count then
          InfixStore.shift_runends_right (InfixStore.shift_slots_right s ip) ip
        else s)
        (if 0 < t.elem_count then
          InfixStore.shift_runends_right (InfixStore.shift_slots_right t ip) ip
        else t) := by
      by_cases hc : 0 < t.elem_count
      · rw [if_pos hc, if_pos hc]
        exact eqUpto0_shift_runends_right _ _ ip
          (eqUpto0_shift_slots_right _ _ ip h)
      · rw [if_neg hc, if_neg hc]
        exact h
    have hW : DropRel
        (write_slot_at
          (if 0 < t.elem_count then
            InfixStore.shift_runends_right (InfixStore.shift_slots_right s ip) ip
          else s).data
          (InfixStore.slotsStart
            (if 0 < t.elem_count then
              InfixStore.shift_runends_right (InfixStore.shift_slots_right s ip) ip
            else s))
          ip (split_qr x t.quotient_size t.remainder_size).2
          (if 0 < t.elem_count then
            InfixStore.shift_runends_right (InfixStore.shift_slots_right s ip) ip
          else s).remainder_size)
        (write_slot_at
          (if 0 < t.elem_count then
            InfixStore.shift_runends_right (InfixStore.shift_slots_right t ip) ip
          else t).data
          (InfixStore.slotsStart
            (if 0 < t.elem_count then
              InfixStore.shift_runends_right (InfixStore.shift_slots_right t ip) ip
            else t))
          ip (split_qr x t.quotient_size t.remainder_size).2
          (if 0 < t.elem_count then
            InfixStore.shift_runends_right (InfixStore.shift_slots_right t ip) ip
          else t).remainder_size) := by
      rw [eqUpto0_slotsStart _ _ h1, h1.2.2.1]
      exact dropRel_write_slot_at _ _ _ _ _ _ h1.2.2.2.2 (slotsStart_pos _)
    apply eqUpto0_bump
    by_cases hnew : (!InfixStore.is_occupied t
        (split_qr x t.quotient_size t.remainder_size).1) = true
    · rw [if_pos hnew, if_pos hnew]
      refine ⟨h1.1, h1.2.1, h1.2.2.1, h1.2.2.2.1, ?_⟩
      exact dropRel_set_bit_at _ _ 1 _
        (dropRel_set_bit_at _ _ (1 + occWords) ip hW (Nat.le_add_right 1 occWords))
        (le_refl 1)
    · rw [if_neg hnew, if_neg hnew]
      by_cases hre : InfixStore.ins_run_end t
          (split_qr x t.quotient_size t.remainder_size).1 ≤ ip
      · rw [if_pos hre, if_pos hre]
        refine ⟨h1.1, h1.2.1, h1.2.2.1, h1.2.2.2.1, ?_⟩
        exact dropRel_set_bit_at _ _ (1 + occWords) ip
          (dropRel_clear_bit_at _ _ (1 + occWords) _ hW (Nat.le_add_right 1 occWords))
          (Nat.le_add_right 1 occWords)
      · rw [if_neg hre, if_neg hre]
        exact ⟨h1.1, h1.2.1, h1.2.2.1, h1.2.2.2.1, hW⟩

theorem eqUpto0_insert (s t : InfixStore) (x : Nat) (h : EqUpto0 s t) :
    (InfixStore.insert s x).1 = (InfixStore.insert t x).1 ∧
    EqUpto0 (InfixStore.insert s x).2 (InfixStore.insert t x).2 := by
  unfold InfixStore.insert
  rw [h.2.1, h.1]
  by_cases hc : scaled t.size_grade ≤ t.elem_count
  · rw [if_pos hc, if_pos hc]
    by_cases hg : SIZE_GRADE_COUNT - 1 ≤ t.size_grade
    · have hs : InfixStore.resize_up s = (false, s) := by
        unfold InfixStore.resize_up
        rw [h.2.1, if_pos hg]
      have ht : InfixStore.resize_up t = (false, t) := by
        unfold InfixStore.resize_up
        rw [if_pos hg]
      rw [hs, ht]
      exact ⟨rfl, h⟩
    · have hs : InfixStore.resize_up s
          = (true, InfixStore.resize_to s (t.size_grade + 1)) := by
        unfold InfixStore.resize_up
        rw [h.2.1, if_neg hg]
      have ht : InfixStore.resize_up t
          = (true, InfixStore.resize_to t (t.size_grade + 1)) := by
        unfold InfixStore.resize_up
        rw [if_neg hg]
      rw [hs, ht]
      exact ⟨rfl, eqUpto0_insert_core _ _ x (eqUpto0_resize_to s t _ h)⟩
  · rw [if_neg hc, if_neg hc]
    exact ⟨rfl, eqUpto0_insert_core s t x h⟩

theorem eqUpto0_del_head (s t : InfixStore) (q rs re pos : Nat) (h : EqUpto0 s t) :
    EqUpto0
      (if rs = re then { s with data := clear_bit_at s.data 1 q }
       else if pos = re then
         { s with data := set_bit_at s.data (1 + occWords) (pos - 1) }
       else s)
      (if rs = re then { t with data := clear_bit_at t.data 1 q }
       else if pos = re then
         { t with data := set_bit_at t.data (1 + occWords) (pos - 1) }
       else t) := by
  by_cases h1 : rs = re
  · rw [if_pos h1, if_pos h1]
    exact eqUpto0_mk s t _ _ h
      (dropRel_clear_bit_at s.data t.data 1 q h.2.2.2.2 (le_refl 1))
  · rw [if_neg h1, if_neg h1]
    by_cases h2 : pos = re
    · rw [if_pos h2, if_pos h2]
      exact eqUpto0_mk s t _ _ h
        (dropRel_set_bit_at s.data t.data (1 + occWords) (pos - 1)
          h.2.2.2.2 (Nat.le_add_right 1 occWords))
    · rw [if_neg h2, if_neg h2]
      exact h

theorem eqUpto0_del_tail (a b : InfixStore) (h : EqUpto0 a b) :
    EqUpto0
      (if 0 < a.size_grade then
        if a.elem_count ≤ scaled (a.size_grade - 1) / 2
          then (InfixStore.resize_down a).2 else a
      else a)
      (if 0 < b.size_grade then
        if b.elem_count ≤ scaled (b.size_grade - 1) / 2
          then (InfixStore.resize_down b).2 else b
      else b) := by
  rw [h.2.1, h.1]
  by_cases h0 : 0 < b.size_grade
  · rw [if_pos h0, if_pos h0]
    by_cases h1 : b.elem_count ≤ scaled (b.size_grade - 1) / 2
    · rw [if_pos h1, if_pos h1]
      exact eqUpto0_resize_down_snd a b h
    · rw [if_neg h1, if_neg h1]
      exact h
  · rw [if_neg h0, if_neg h0]
    exact h

theorem eqUpto0_delete (s t : InfixStore) (x : Nat) (h : EqUpto0 s t) :
    (InfixStore.delete s x = none ∧ InfixStore.delete t x = none) ∨
    (∃ b u1 u2, InfixStore.delete s x = some (b, u1) ∧
      InfixStore.delete t x = some (b, u2) ∧ EqUpto0 u1 u2) := by
  have hqr : split_qr x s.quotient_size s.remainder_size
      = split_qr x t.quotient_size t.remainder_size := by
    rw [h.2.2.1, h.2.2.2.1]
  have hdsf : InfixStore.del_scan s (split_qr x t.quotient_size t.remainder_size).2
      = InfixStore.del_scan t (split_qr x t.quotient_size t.remainder_size).2 := by
    funext i n
    exact eqUpto0_del_scan s t h _ n i
  simp only [InfixStore.delete]
  rw [hqr, eqUpto0_is_occupied s t h, eqUpto0_run_start_of s t h,
      eqUpto0_runSlice s t h, eqUpto0_run_index_of s t h, hdsf]
  by_cases hocc : (!InfixStore.is_occupied t
      (split_qr x t.quotient_size t.remainder_size).1) = true
  · rw [if_pos hocc, if_pos hocc]
    exact Or.inr ⟨false, s, t, rfl, rfl, h⟩
  · rw [if_neg hocc, if_neg hocc]
    cases hsel : Bitmap.select (InfixStore.runSlice t)
        (InfixStore.run_index_of t
          (split_qr x t.quotient_size t.remainder_size).1) with
    | none => exact Or.inl ⟨rfl, rfl⟩
    | some re =>
      dsimp only
      cases hds : InfixStore.del_scan t
          (split_qr x t.quotient_size t.remainder_size).2
          (InfixStore.run_start_of t
            (split_qr x t.quotient_size t.remainder_size).1)
          (re + 1 - InfixStore.run_start_of t
            (split_qr x t.quotient_size t.remainder_size).1) with
      | none => exact Or.inr ⟨false, s, t, rfl, rfl, h⟩
      | some pos =>
        dsimp only
        exact Or.inr ⟨true, _, _, rfl, rfl,
          eqUpto0_del_tail _ _ (eqUpto0_decr _ _
            (eqUpto0_shift_runends_left _ _ pos
              (eqUpto0_shift_slots_left _ _ pos
                (eqUpto0_del_head s t
                  (split_qr x t.quotient_size t.remainder_size).1
                  (InfixStore.run_start_of t
                    (split_qr x t.quotient_size t.remainder_size).1)
                  re pos h))))⟩

/-- C10: the popcounts cache word data[0] never influences behaviour: for a
store whose data word 0 is overwritten by an arbitrary value, insert returns
the same flag and a store identical outside word 0, delete returns the same
outcome with result stores identical outside word 0, and is_occupied,
is_runend, read_slot, get_run_bounds and find_remainder_in_run are
unchanged. -/
theorem popcount_cache_independence (s : InfixStore) (v x q r i : Nat) :
    (InfixStore.insert { s with data := s.data.set 0 v } x).1
        = (InfixStore.insert s x).1 ∧
    (InfixStore.insert { s with data := s.data.set 0 v } x).2.elem_count
        = (InfixStore.insert s x).2.elem_count ∧
    (InfixStore.insert { s with data := s.data.set 0 v } x).2.size_grade
        = (InfixStore.insert s x).2.size_grade ∧
    (InfixStore.insert { s with data := s.data.set 0 v } x).2.remainder_size
        = (InfixStore.insert s x).2.remainder_size ∧
    (InfixStore.insert { s with data := s.data.set 0 v } x).2.data.length
        = (InfixStore.insert s x).2.data.length ∧
    (InfixStore.insert { s with data := s.data.set 0 v } x).2.data.drop 1
        = (InfixStore.insert s x).2.data.drop 1 ∧
    (InfixStore.delete { s with data := s.data.set 0 v } x).map
        (fun p => (p.1, p.2.elem_count, p.2.size_grade, p.2.remainder_size,
          p.2.data.length, p.2.data.drop 1))
      = (InfixStore.delete s x).map
        (fun p => (p.1, p.2.elem_count, p.2.size_grade, p.2.remainder_size,
          p.2.data.length, p.2.data.drop 1)) ∧
    InfixStore.is_occupied { s with data := s.data.set 0 v } q
        = InfixStore.is_occupied s q ∧
    InfixStore.is_runend { s with data := s.data.set 0 v } i
        = InfixStore.is_runend s i ∧
    InfixStore.read_slot { s with data := s.data.set 0 v } i
        = InfixStore.read_slot s i ∧
    InfixStore.get_run_bounds { s with data := s.data.set 0 v } q
        = InfixStore.get_run_bounds s q ∧
    InfixStore.find_remainder_in_run { s with data := s.data.set 0 v } q r
        = InfixStore.find_remainder_in_run s q r := by
  have h : EqUpto0 { s with data := s.data.set 0 v } s :=
    ⟨rfl, rfl, rfl, rfl, by simp, drop_one_set_zero s.data v⟩
  have hins := eqUpto0_insert _ s x h
  have hdel := eqUpto0_delete _ s x h
  refine ⟨hins.1, hins.2.1, hins.2.2.1, hins.2.2.2.1, hins.2.2.2.2.2.1,
    hins.2.2.2.2.2.2, ?_, eqUpto0_is_occupied _ s h q, eqUpto0_is_runend _ s h i,
    eqUpto0_read_slot _ s h i, eqUpto0_get_run_bounds _ s h q,
    eqUpto0_find_remainder_in_run _ s h q r⟩
  rcases hdel with ⟨h1, h2⟩ | ⟨b, u1, u2, h1, h2, hu⟩
  · rw [h1, h2]
  · rw [h1, h2]
    dsimp only [Option.map]
    rw [hu.1, hu.2.1, hu.2.2.1, hu.2.2.2.2.1, hu.2.2.2.2.2]
